import Mathlib

/-!
# Verification of the zed-file-context-server (mcedit) core

A shallow embedding of the repository's core components, translated from the
Rust sources:

* `src/editor/file_editor.rs`   — line/region edit primitives (`FileEditor`);
* `src/file_service/service.rs` — sandboxed path resolution and the
  backup-before-mutate file service (`FileService`);
* `src/file_service/backup.rs`  — bounded-retention backup store
  (`BackupManager`);
* `src/diff/generator.rs`       — unified diff hunk rendering
  (`DiffGenerator`);
* `src/mcp/handler.rs`          — the protocol dispatcher (`McpHandler`).

File contents are modelled as lists of characters (`Content`), the file
system as an association list from paths to contents, and each stateful
operation as an explicit state-passing function returning the new state
together with an `Except`-style outcome.
-/

namespace Mcedit

/-- File contents: a byte/character sequence, modelled as a list of `Char`. -/
abbrev Content := List Char

/-- Convenience conversion from string literals to `Content`. -/
def str (s : String) : Content := s.toList

/-- Full split of a character sequence on the newline character, mirroring
splitting a Rust string at every `'\n'`.  The result is always non-empty;
`splitNL [] = [[]]`. -/
def splitNL : Content → List Content
  | [] => [[]]
  | c :: rest =>
    if c = '\n' then [] :: splitNL rest
    else
      match splitNL rest with
      | [] => [[c]]
      | s :: ss => (c :: s) :: ss

/-- `str::lines()` from Rust: split on `'\n'` and drop a final empty
segment (a trailing line terminator does not produce an extra line). -/
def rustLines (l : Content) : List Content :=
  let ss := splitNL l
  if ss.getLast? = some ([] : Content) then ss.dropLast else ss

/-- `Vec<&str>::join("\n")`: interleave the pieces with single newlines,
appending no trailing separator. -/
def joinNL : List Content → Content
  | [] => []
  | [x] => x
  | x :: y :: ys => x ++ '\n' :: joinNL (y :: ys)

/-- Whether a character sequence ends with a newline
(`str::ends_with('\n')`). -/
def endsNL (l : Content) : Bool := l.getLast? = some '\n'

/-- Drop a final empty segment, as `rustLines` does after splitting. -/
def chopEmpty (ss : List Content) : List Content :=
  if ss.getLast? = some ([] : Content) then ss.dropLast else ss

/-! ## `src/editor/file_editor.rs` — the line/region edit primitives

The editor reads the whole file, splits it into lines (`str::lines`),
mutates the in-memory line list and rewrites the file as the list joined
with a single newline.  We model each primitive as a pure function from
the file's current content to the rewritten content (the path-existence
check performed by the Rust code is the caller's concern in the state
model further below). -/

/-- `EditorError` from `src/editor/file_editor.rs`. -/
inductive EditorError
  | fileNotFound
  | ioError
  | lineOutOfRange (n : Nat)
  | invalidRange (s e : Nat)
deriving DecidableEq

namespace FileEditor

/-- `FileEditor::insert_line` on the file's content: valid for
`line_num ≤ lines.len()` (equality appends), else `LineOutOfRange`. -/
def insert_line (content : Content) (lineNum : Nat) (newLine : Content) :
    Except EditorError Content :=
  let lines := rustLines content
  if lineNum > lines.length then .error (.lineOutOfRange lineNum)
  else .ok (joinNL (lines.insertIdx lineNum newLine))

/-- `FileEditor::replace_line`: valid for `line_num < lines.len()`. -/
def replace_line (content : Content) (lineNum : Nat) (newLine : Content) :
    Except EditorError Content :=
  let lines := rustLines content
  if lineNum ≥ lines.length then .error (.lineOutOfRange lineNum)
  else .ok (joinNL (lines.set lineNum newLine))

/-- `FileEditor::delete_line`: valid for `line_num < lines.len()`. -/
def delete_line (content : Content) (lineNum : Nat) :
    Except EditorError Content :=
  let lines := rustLines content
  if lineNum ≥ lines.length then .error (.lineOutOfRange lineNum)
  else .ok (joinNL (lines.eraseIdx lineNum))

/-- `FileEditor::edit_region`: validates `start ≤ end` (else
`InvalidRange`) then `start < lines.len()` (else `LineOutOfRange`), clamps
`end` to the line count, and rebuilds the file text as in the Rust code:
the leading lines joined plus a newline (when `start > 0`), then the new
content verbatim, then — when lines remain after the clamped end — a
separating newline (only if the text so far does not already end with one)
and the trailing lines joined. -/
def edit_region (content : Content) (startLine endLine : Nat)
    (newContent : Content) : Except EditorError Content :=
  if startLine > endLine then .error (.invalidRange startLine endLine)
  else
    let lines := rustLines content
    if startLine ≥ lines.length then .error (.lineOutOfRange startLine)
    else
      let effectiveEnd := min endLine lines.length
      let r1 := (if 0 < startLine then joinNL (lines.take startLine) ++ ['\n']
                 else []) ++ newContent
      let r2 := r1 ++
        (if effectiveEnd < lines.length then
            (if endsNL r1 then [] else ['\n']) ++ joinNL (lines.drop effectiveEnd)
          else [])
      .ok r2

end FileEditor

/-- The three single-line edit primitives, used to state properties common
to `insert_line`, `replace_line` and `delete_line`. -/
inductive LineOp
  | insertOp (n : Nat) (c : Content)
  | replaceOp (n : Nat) (c : Content)
  | deleteOp (n : Nat)
deriving DecidableEq

/-- Dispatch a `LineOp` to the corresponding editor primitive. -/
def applyLineOp (op : LineOp) (content : Content) : Except EditorError Content :=
  match op with
  | .insertOp n c => FileEditor.insert_line content n c
  | .replaceOp n c => FileEditor.replace_line content n c
  | .deleteOp n => FileEditor.delete_line content n

/-- The in-memory line list each primitive would produce. -/
def editedLines (op : LineOp) (content : Content) : List Content :=
  let lines := rustLines content
  match op with
  | .insertOp n c => lines.insertIdx n c
  | .replaceOp n c => lines.set n c
  | .deleteOp n => lines.eraseIdx n

/-! ## `src/file_service/service.rs` — sandboxed path resolution

Paths are sequences of components.  `FsWorld` is the set of existing
filesystem objects, given by their normalized absolute paths;
canonicalization is modelled as `..`-resolution that succeeds exactly when
the target exists (symlinks are outside the model). -/

/-- A filesystem path, as a sequence of components (interpreted from the
root when used absolutely).  Components may include `".."`. -/
abbrev FPath := List String

/-- A user-supplied (requested) path: absolute or relative. -/
structure RPath where
  absolute : Bool
  comps : List String
deriving DecidableEq

/-- The existing filesystem objects, as normalized absolute paths. -/
abbrev FsWorld := List FPath

/-- Textual rendering of an absolute path, for the `to_string_lossy`
prefix test the Rust code applies to absolute requested paths. -/
def renderPath (p : FPath) : String := "/" ++ String.intercalate "/" p

/-- Resolve `..` components the way canonicalization would. -/
def normalize (p : FPath) : FPath :=
  p.foldl (fun acc c => if c = ".." then acc.dropLast else acc ++ [c]) []

/-- Modelled canonicalization (`Path::canonicalize`): resolves `..` and
succeeds exactly when the resulting target exists. -/
def canonicalize (fs : FsWorld) (p : FPath) : Except Unit FPath :=
  let n := normalize p
  if n ∈ fs then .ok n else .error ()

/-- `FileServiceError` from `src/file_service/service.rs`, together with
the backup errors it absorbs and a catch-all for the `anyhow` failures of
`apply_suggestion`. -/
inductive ServiceError
  | fileNotFound
  | permissionDenied
  | invalidPath
  | ioError
  | fileAlreadyExists
  | backupFileNotFound
  | noBackupAvailable
  | editorError (e : EditorError)
  | suggestionError
deriving DecidableEq

/-- The syntactic join performed before canonicalization: an absolute
request stands alone, a relative one is pushed onto the base. -/
def joinedPath (base : FPath) (p : RPath) : FPath :=
  if p.absolute then p.comps else base ++ p.comps

namespace FileService

/-- `FileService::resolve_path`: an absolute request must pass the textual
(string-prefix) base test; the request is then joined and canonicalized.
If canonicalization succeeds the canonical path must start with the
canonicalized base (component-wise), else `PermissionDenied`; if it fails
the syntactically joined path is returned unchecked. -/
def resolve_path (fs : FsWorld) (base : FPath) (p : RPath) :
    Except ServiceError FPath :=
  if p.absolute ∧ ¬ (renderPath base).isPrefixOf (renderPath p.comps) then
    .error .permissionDenied
  else
    let resolved := joinedPath base p
    match canonicalize fs resolved with
    | .ok canonPath =>
      match canonicalize fs base with
      | .ok canonBase =>
        if canonBase.isPrefixOf canonPath then .ok canonPath
        else .error .permissionDenied
      | .error _ => .error .ioError
    | .error _ => .ok resolved

end FileService

/-! ## `src/file_service/backup.rs` and the mutating service operations

The filesystem is an association list from (resolved) paths to contents;
the backup store maps each source path to its backups, newest first.
Backup filenames carry millisecond timestamps and `list_backups` sorts by
modification time descending; with a monotone clock that order is the
reverse insertion order, which the model stores directly.  The pruning
pass of `cleanup_old_backups` (run at the end of every
`create_backup`) keeps the newest `MAX_BACKUPS_PER_FILE` entries. -/

/-- Association-list lookup keyed by path. -/
def alookup {α : Type _} : List (FPath × α) → FPath → Option α
  | [], _ => none
  | (q, v) :: rest, p => if q = p then some v else alookup rest p

/-- Association-list insert-or-replace keyed by path. -/
def aupdate {α : Type _} : List (FPath × α) → FPath → α → List (FPath × α)
  | [], p, v => [(p, v)]
  | (q, w) :: rest, p, v =>
    if q = p then (p, v) :: rest else (q, w) :: aupdate rest p v

/-- Association-list removal keyed by path. -/
def aremove {α : Type _} : List (FPath × α) → FPath → List (FPath × α)
  | [], _ => []
  | (q, w) :: rest, p => if q = p then rest else (q, w) :: aremove rest p

/-- The state the file service acts on: the live files and the backup
store. -/
structure SState where
  files : List (FPath × Content)
  backups : List (FPath × List Content)
deriving DecidableEq

/-- `MAX_BACKUPS_PER_FILE` from `src/file_service/backup.rs`. -/
def MAX_BACKUPS_PER_FILE : Nat := 10

/-- Overwrite (or create) a file, as `FileEditor::write_file` does on the
filesystem. -/
def writeF (st : SState) (p : FPath) (c : Content) : SState :=
  { st with files := aupdate st.files p c }

namespace BackupManager

/-- `BackupManager::list_backups`: newest first; a missing bucket yields
an empty list rather than an error. -/
def list_backups (st : SState) (p : FPath) : List Content :=
  (alookup st.backups p).getD []

/-- `BackupManager::create_backup`: requires the source to exist (as a
regular file), copies its bytes into the bucket, then prunes the bucket to
the newest `MAX_BACKUPS_PER_FILE` entries. -/
def create_backup (st : SState) (p : FPath) :
    Except ServiceError SState :=
  match alookup st.files p with
  | none => .error .backupFileNotFound
  | some c =>
    let pruned := (c :: list_backups st p).take MAX_BACKUPS_PER_FILE
    .ok { st with backups := aupdate st.backups p pruned }

end BackupManager

/-- A run of successive snapshots of one file: each round writes the
file's next content (bypassing the service's own backup, as a driver
would between backups) and then calls `create_backup` on it.  The
error arm is unreachable — the file was just written. -/
def snapshotRun (st : SState) (p : FPath) : List Content → SState
  | [] => st
  | c :: cs =>
    let st1 := writeF st p c
    match BackupManager.create_backup st1 p with
    | .ok st2 => snapshotRun st2 p cs
    | .error _ => st1

/-! The editor primitives acting through the filesystem at an already
resolved path (`self.editor.xxx(&resolved_path, ...)` in
`src/file_service/service.rs`): read the file, run the pure edit, rewrite
the file.  On an editor failure the filesystem is unchanged. -/

namespace FileEditorFS

/-- `FileEditor::insert_line` against the filesystem. -/
def insert_line (st : SState) (p : FPath) (n : Nat) (c : Content) :
    SState × Except ServiceError Unit :=
  match alookup st.files p with
  | none => (st, .error (.editorError .fileNotFound))
  | some old =>
    match FileEditor.insert_line old n c with
    | .error e => (st, .error (.editorError e))
    | .ok nc => (writeF st p nc, .ok ())

/-- `FileEditor::replace_line` against the filesystem. -/
def replace_line (st : SState) (p : FPath) (n : Nat) (c : Content) :
    SState × Except ServiceError Unit :=
  match alookup st.files p with
  | none => (st, .error (.editorError .fileNotFound))
  | some old =>
    match FileEditor.replace_line old n c with
    | .error e => (st, .error (.editorError e))
    | .ok nc => (writeF st p nc, .ok ())

/-- `FileEditor::delete_line` against the filesystem. -/
def delete_line (st : SState) (p : FPath) (n : Nat) :
    SState × Except ServiceError Unit :=
  match alookup st.files p with
  | none => (st, .error (.editorError .fileNotFound))
  | some old =>
    match FileEditor.delete_line old n with
    | .error e => (st, .error (.editorError e))
    | .ok nc => (writeF st p nc, .ok ())

/-- `FileEditor::edit_region` against the filesystem. -/
def edit_region (st : SState) (p : FPath) (startLine endLine : Nat)
    (c : Content) : SState × Except ServiceError Unit :=
  match alookup st.files p with
  | none => (st, .error (.editorError .fileNotFound))
  | some old =>
    match FileEditor.edit_region old startLine endLine c with
    | .error e => (st, .error (.editorError e))
    | .ok nc => (writeF st p nc, .ok ())

end FileEditorFS

/-- One op of an `Edit` suggestion, as extracted from its JSON (the
`unwrap_or` defaults for missing `line`/`start`/`end`/`content` fields
have already been applied by the extraction). -/
inductive EditAction
  | insertA (line : Nat) (content : Content)
  | replaceA (line : Nat) (content : Content)
  | deleteA (line : Nat)
  | regionA (startLine endLine : Nat) (content : Content)
  | unknownA (name : String)
deriving DecidableEq

/-- One entry of the `results` sequence `apply_suggestion` builds. -/
inductive OpResult
  | insertOk (line : Nat)
  | replaceOk (line : Nat)
  | deleteOk (line : Nat)
  | regionOk (startLine endLine : Nat)
  | unknownErr (name : String)
deriving DecidableEq

/-- A parsed suggestion (the `type` tag of the JSON together with the
optional fields each branch of `apply_suggestion` reads). -/
inductive Suggestion
  | replaceSug (content : Option Content)
  | editSug (edits : Option (List EditAction))
  | createSug (content : Option Content) (overwrite : Option Bool)
  | unknownSug
deriving DecidableEq

/-- One iteration body of the edit loop in `FileService::apply_suggestion`:
known actions call the editor directly (a failure propagates through `?`),
an unknown action only records an error entry. -/
def runEditAction (st : SState) (p : FPath) :
    EditAction → SState × Except ServiceError OpResult
  | .insertA n c =>
    let r := FileEditorFS.insert_line st p n c
    (r.1, r.2.map (fun _ => .insertOk n))
  | .replaceA n c =>
    let r := FileEditorFS.replace_line st p n c
    (r.1, r.2.map (fun _ => .replaceOk n))
  | .deleteA n =>
    let r := FileEditorFS.delete_line st p n
    (r.1, r.2.map (fun _ => .deleteOk n))
  | .regionA s e c =>
    let r := FileEditorFS.edit_region st p s e c
    (r.1, r.2.map (fun _ => .regionOk s e))
  | .unknownA name => (st, .ok (.unknownErr name))

/-- The edit loop of `FileService::apply_suggestion`: ops run in order,
each successful (or unknown) op appends to `results`; a failing known op
aborts the loop with its error (`?` in the Rust code). -/
def applyEditLoop : SState → FPath → List EditAction →
    SState × Except ServiceError (List OpResult)
  | st, _, [] => (st, .ok [])
  | st, p, a :: rest =>
    match runEditAction st p a with
    | (st1, .ok r) =>
      let rec2 := applyEditLoop st1 p rest
      (rec2.1, rec2.2.map (fun rs => r :: rs))
    | (st1, .error e) => (st1, .error e)

namespace FileService

/-- `FileService::write_file`: backup when the target exists, then
truncate-replace. -/
def write_file (st : SState) (p : FPath) (c : Content) :
    SState × Except ServiceError Unit :=
  if (alookup st.files p).isSome then
    match BackupManager.create_backup st p with
    | .error e => (st, .error e)
    | .ok st1 => (writeF st1 p c, .ok ())
  else (writeF st p c, .ok ())

/-- `FileService::append_to_file`: requires the target, backs it up, then
appends. -/
def append_to_file (st : SState) (p : FPath) (c : Content) :
    SState × Except ServiceError Unit :=
  match alookup st.files p with
  | none => (st, .error .fileNotFound)
  | some old =>
    match BackupManager.create_backup st p with
    | .error e => (st, .error e)
    | .ok st1 => (writeF st1 p (old ++ c), .ok ())

/-- `FileService::create_file`: fails on an existing target, performs no
backup. -/
def create_file (st : SState) (p : FPath) (c : Content) :
    SState × Except ServiceError Unit :=
  if (alookup st.files p).isSome then (st, .error .fileAlreadyExists)
  else (writeF st p c, .ok ())

/-- `FileService::insert_line`: exists-check, backup, then the editor. -/
def insert_line (st : SState) (p : FPath) (n : Nat) (c : Content) :
    SState × Except ServiceError Unit :=
  if (alookup st.files p).isNone then (st, .error .fileNotFound)
  else
    match BackupManager.create_backup st p with
    | .error e => (st, .error e)
    | .ok st1 => FileEditorFS.insert_line st1 p n c

/-- `FileService::replace_line`: exists-check, backup, then the editor. -/
def replace_line (st : SState) (p : FPath) (n : Nat) (c : Content) :
    SState × Except ServiceError Unit :=
  if (alookup st.files p).isNone then (st, .error .fileNotFound)
  else
    match BackupManager.create_backup st p with
    | .error e => (st, .error e)
    | .ok st1 => FileEditorFS.replace_line st1 p n c

/-- `FileService::delete_line`: exists-check, backup, then the editor. -/
def delete_line (st : SState) (p : FPath) (n : Nat) :
    SState × Except ServiceError Unit :=
  if (alookup st.files p).isNone then (st, .error .fileNotFound)
  else
    match BackupManager.create_backup st p with
    | .error e => (st, .error e)
    | .ok st1 => FileEditorFS.delete_line st1 p n

/-- `FileService::edit_region`: exists-check, backup, then the editor. -/
def edit_region (st : SState) (p : FPath) (startLine endLine : Nat)
    (c : Content) : SState × Except ServiceError Unit :=
  if (alookup st.files p).isNone then (st, .error .fileNotFound)
  else
    match BackupManager.create_backup st p with
    | .error e => (st, .error e)
    | .ok st1 => FileEditorFS.edit_region st1 p startLine endLine c

/-- `FileService::delete_file`: exists-check, backup, then removal. -/
def delete_file (st : SState) (p : FPath) :
    SState × Except ServiceError Unit :=
  match alookup st.files p with
  | none => (st, .error .fileNotFound)
  | some _ =>
    match BackupManager.create_backup st p with
    | .error e => (st, .error e)
    | .ok st1 => ({ st1 with files := aremove st1.files p }, .ok ())

/-- `FileService::rename_file`: source must exist, destination must not;
the source is backed up, then moved. -/
def rename_file (st : SState) (src dst : FPath) :
    SState × Except ServiceError Unit :=
  match alookup st.files src with
  | none => (st, .error .fileNotFound)
  | some c =>
    if (alookup st.files dst).isSome then (st, .error .fileAlreadyExists)
    else
      match BackupManager.create_backup st src with
      | .error e => (st, .error e)
      | .ok st1 => ({ st1 with files := aupdate (aremove st1.files src) dst c }, .ok ())

/-- `FileService::apply_suggestion`: backup upfront when the target
exists, then dispatch on the suggestion type.  `Replace` overwrites,
`Edit` runs the op loop, `Create` refuses an existing target unless
`overwrite` (default `false`) is set — backing the target up once more
before clobbering it — and an unknown type is an error.  The returned
list is the `results` sequence of an `Edit` (empty for the others). -/
def apply_suggestion (st : SState) (p : FPath) (sugg : Suggestion) :
    SState × Except ServiceError (List OpResult) :=
  let step1 : Except ServiceError SState :=
    if (alookup st.files p).isSome then BackupManager.create_backup st p
    else .ok st
  match step1 with
  | .error e => (st, .error e)
  | .ok st1 =>
    match sugg with
    | .replaceSug content =>
      match content with
      | some c => (writeF st1 p c, .ok [])
      | none => (st1, .error .suggestionError)
    | .editSug edits =>
      match edits with
      | some es => applyEditLoop st1 p es
      | none => (st1, .error .suggestionError)
    | .createSug content overwrite =>
      match content with
      | none => (st1, .error .suggestionError)
      | some c =>
        if (alookup st1.files p).isSome then
          if overwrite.getD false = false then (st1, .error .suggestionError)
          else
            match BackupManager.create_backup st1 p with
            | .error e => (st1, .error e)
            | .ok st2 => (writeF st2 p c, .ok [])
        else (writeF st1 p c, .ok [])
    | .unknownSug => (st1, .error .suggestionError)

end FileService

/-- The mutating service operations (plus `create_file`), for stating the
backup invariant uniformly. -/
inductive SOp
  | writeOp (c : Content)
  | appendOp (c : Content)
  | insertLineOp (n : Nat) (c : Content)
  | replaceLineOp (n : Nat) (c : Content)
  | deleteLineOp (n : Nat)
  | regionOp (startLine endLine : Nat) (c : Content)
  | deleteFileOp
  | renameOp (dst : FPath)
  | suggestOp (sg : Suggestion)
  | createOp (c : Content)
deriving DecidableEq

/-- Run a service operation targeting path `p`. -/
def runSOp : SOp → SState → FPath → SState × Except ServiceError Unit
  | .writeOp c, st, p => FileService.write_file st p c
  | .appendOp c, st, p => FileService.append_to_file st p c
  | .insertLineOp n c, st, p => FileService.insert_line st p n c
  | .replaceLineOp n c, st, p => FileService.replace_line st p n c
  | .deleteLineOp n, st, p => FileService.delete_line st p n
  | .regionOp s e c, st, p => FileService.edit_region st p s e c
  | .deleteFileOp, st, p => FileService.delete_file st p
  | .renameOp dst, st, p => FileService.rename_file st p dst
  | .suggestOp sg, st, p =>
    let r := FileService.apply_suggestion st p sg
    (r.1, r.2.map (fun _ => ()))
  | .createOp c, st, p => FileService.create_file st p c

/-! ## `src/diff/generator.rs` — unified diff hunks

`generate_unified_diff` walks the opcode stream of
`similar::TextDiff::from_lines` with an accumulator and renders hunks; we
model the accumulator loop verbatim (including that the running hunk
sizes are reset only when a hunk starts at an `Equal` opcode) and record
the emitted hunks structurally, with the 0-based counters the Rust code
keeps (headers print them 1-based). -/

/-- `similar::ChangeTag`. -/
inductive ChangeTag
  | equalTag
  | deleteTag
  | insertTag
deriving DecidableEq

/-- One opcode of the line alignment: a tag and the line (with its line
ending) it carries. -/
structure Change where
  tag : ChangeTag
  text : Content
deriving DecidableEq

/-- Split into lines keeping each line's terminating newline, the
tokenization `TextDiff::from_lines` applies. -/
def linesWithEndings : Content → List Content
  | [] => []
  | c :: rest =>
    if c = '\n' then [c] :: linesWithEndings rest
    else
      match linesWithEndings rest with
      | [] => [[c]]
      | s :: ss => (c :: s) :: ss

/-- Number of non-equal opcodes. -/
def countChanges (cs : List Change) : Nat :=
  cs.countP (fun c => decide (c.tag ≠ ChangeTag.equalTag))

/-- Modelled from the spec: the external `similar` crate "computes a
line-level equal/insert/delete opcode alignment" between the two line
sequences; this is a least-changes alignment, taken here as the classic
recursive formulation (fuelled structurally; each call consumes at least
one element of either list, so the length sum is always enough fuel).
Identical inputs align as all-`Equal`, and an empty original aligns as
pure inserts. -/
def lcsDiffFuel : Nat → List Content → List Content → List Change
  | 0, _, _ => []
  | _ + 1, [], [] => []
  | fuel + 1, [], b :: bs => ⟨.insertTag, b⟩ :: lcsDiffFuel fuel [] bs
  | fuel + 1, a :: xs, [] => ⟨.deleteTag, a⟩ :: lcsDiffFuel fuel xs []
  | fuel + 1, a :: xs, b :: bs =>
    if a = b then ⟨.equalTag, a⟩ :: lcsDiffFuel fuel xs bs
    else
      let viaDelete := ⟨.deleteTag, a⟩ :: lcsDiffFuel fuel xs (b :: bs)
      let viaInsert := ⟨.insertTag, b⟩ :: lcsDiffFuel fuel (a :: xs) bs
      if countChanges viaDelete ≤ countChanges viaInsert then viaDelete
      else viaInsert

/-- The alignment, with enough fuel for the whole recursion. -/
def lcsDiff (xs ys : List Content) : List Change :=
  lcsDiffFuel (xs.length + ys.length) xs ys

/-- An emitted hunk: the `@@ -o,lo +m,lm @@` counters (0-based, as the
Rust variables hold them) and the rendered lines. -/
structure Hunk where
  startOrig : Nat
  sizeOrig : Nat
  startMod : Nat
  sizeMod : Nat
  lns : List Change
deriving DecidableEq

/-- The mutable state of the rendering loop in
`DiffGenerator::generate_unified_diff`. -/
structure DState where
  lineOrig : Nat
  lineMod : Nat
  hunkStartOrig : Nat
  hunkSizeOrig : Nat
  hunkStartMod : Nat
  hunkSizeMod : Nat
  hunkLines : List Change
  inHunk : Bool
  out : List Hunk
deriving DecidableEq

/-- All-zero initial state of the rendering loop. -/
def initDState : DState :=
  { lineOrig := 0, lineMod := 0, hunkStartOrig := 0, hunkSizeOrig := 0,
    hunkStartMod := 0, hunkSizeMod := 0, hunkLines := [], inHunk := false,
    out := [] }

/-- `has_changes`: the hunk holds at least one `+`/`-` line. -/
def hunkHasChanges (lns : List Change) : Bool :=
  lns.any (fun l => decide (l.tag ≠ ChangeTag.equalTag))

/-- The current accumulator as a hunk. -/
def mkHunk (s : DState) : Hunk :=
  { startOrig := s.hunkStartOrig, sizeOrig := s.hunkSizeOrig,
    startMod := s.hunkStartMod, sizeMod := s.hunkSizeMod,
    lns := s.hunkLines }

/-- The per-opcode `match change.tag()` body of the rendering loop. -/
def stepChange (s : DState) (c : Change) : DState :=
  match c.tag with
  | .equalTag =>
    if s.inHunk then
      { s with hunkLines := s.hunkLines ++ [c],
               hunkSizeOrig := s.hunkSizeOrig + 1,
               hunkSizeMod := s.hunkSizeMod + 1,
               lineOrig := s.lineOrig + 1, lineMod := s.lineMod + 1 }
    else
      { s with hunkStartOrig := s.lineOrig, hunkStartMod := s.lineMod,
               hunkLines := [c], hunkSizeOrig := 1, hunkSizeMod := 1,
               inHunk := true,
               lineOrig := s.lineOrig + 1, lineMod := s.lineMod + 1 }
  | .deleteTag =>
    let s0 := if s.inHunk then s
              else { s with hunkStartOrig := s.lineOrig,
                            hunkStartMod := s.lineMod, inHunk := true }
    { s0 with hunkLines := s0.hunkLines ++ [c],
              hunkSizeOrig := s0.hunkSizeOrig + 1,
              lineOrig := s0.lineOrig + 1 }
  | .insertTag =>
    let s0 := if s.inHunk then s
              else { s with hunkStartOrig := s.lineOrig,
                            hunkStartMod := s.lineMod, inHunk := true }
    { s0 with hunkLines := s0.hunkLines ++ [c],
              hunkSizeMod := s0.hunkSizeMod + 1,
              lineMod := s0.lineMod + 1 }

/-- The flush check after every opcode: once the hunk holds more than 3
lines it is emitted (only if it has changes) and the accumulator is
cleared. -/
def flushIfBig (s : DState) : DState :=
  if s.inHunk = true ∧ s.hunkLines.length > 3 then
    { s with out := if hunkHasChanges s.hunkLines then s.out ++ [mkHunk s]
                    else s.out,
             inHunk := false, hunkLines := [] }
  else s

/-- One full loop iteration. -/
def stepFull (s : DState) (c : Change) : DState := flushIfBig (stepChange s c)

/-- The trailing flush after the loop. -/
def finishDiff (s : DState) : DState :=
  if s.inHunk = true ∧ s.hunkLines ≠ [] then
    { s with out := if hunkHasChanges s.hunkLines then s.out ++ [mkHunk s]
                    else s.out }
  else s

/-- The hunks `generate_unified_diff` renders for an opcode stream. -/
def renderHunks (cs : List Change) : List Hunk :=
  (finishDiff (cs.foldl stepFull initDState)).out

namespace DiffGenerator

/-- `DiffGenerator::generate_unified_diff`, observed as its hunk stream
(the constant `--- Original`/`+++ Modified` header is elided). -/
def generate_unified_diff (original modified : Content) : List Hunk :=
  renderHunks (lcsDiff (linesWithEndings original) (linesWithEndings modified))

end DiffGenerator

/-! ## `src/mcp/handler.rs` — the protocol dispatcher

Inbound `tools/call` parameters are modelled as the generic value shape
the handlers probe (`name`, `arguments`, string-valued argument lookups);
the engine the tool handlers invoke is an oracle parameter, so dispatcher
theorems hold for every engine behavior. -/

/-- `JsonRpcErrorCode` from `src/core/mcedit.rs`. -/
inductive JsonRpcErrorCode
  | parseErrCode
  | invalidRequest
  | methodNotFound
  | invalidParams
  | internalErr
  | fileNotFoundCode
  | permissionDeniedCode
  | invalidPathCode
  | diffErrCode
deriving DecidableEq

/-- The numeric wire value of each error code. -/
def JsonRpcErrorCode.code : JsonRpcErrorCode → Int
  | .parseErrCode => -32700
  | .invalidRequest => -32600
  | .methodNotFound => -32601
  | .invalidParams => -32602
  | .internalErr => -32603
  | .fileNotFoundCode => -32000
  | .permissionDeniedCode => -32001
  | .invalidPathCode => -32002
  | .diffErrCode => -32003

/-- A JSON argument value, as far as the handlers inspect one. -/
inductive ArgValue
  | strV (s : String)
  | natV (n : Nat)
  | boolV (b : Bool)
  | otherV
deriving DecidableEq

/-- The `arguments` object of a `tools/call`. -/
abbrev Args := List (String × ArgValue)

/-- `args.get(k).and_then(|v| v.as_str())`. -/
def getStrArg : Args → String → Option String
  | [], _ => none
  | (q, v) :: rest, k =>
    if q = k then
      match v with
      | .strV s => some s
      | _ => none
    else getStrArg rest k

/-- The `params` value of a `tools/call` request, as probed by the
handlers. -/
structure CallParams where
  name : Option String
  arguments : Option Args
deriving DecidableEq

/-- An outbound response: a success payload or an error code, always
carrying the request id. -/
inductive OutMsg
  | resultMsg (id : Nat) (payload : String)
  | errorMsg (id : Nat) (code : JsonRpcErrorCode)
deriving DecidableEq

/-- The engine the tool handlers call (`self.mcedit.…`), as an oracle
from tool name and arguments to an outcome. -/
abbrev Engine := String → Args → Except String String

namespace McpHandler

/-- `McpHandler::handle_tools_call`: extract `name` (default `""`),
dispatch over the eleven tools, validate each tool's required string
arguments (`InvalidParams` when missing), call the engine, and wrap the
outcome (`InternalError` on an engine failure); an unknown tool name is
`MethodNotFound`.  `apply_suggestion` first consults the parser
(`InvalidParams` on a parse failure) and only then applies. -/
def handle_tools_call (eng : Engine) (id : Nat) (params : CallParams) :
    List OutMsg :=
  let name := params.name.getD ""
  let callEngine := fun (args : Args) =>
    match eng name args with
    | .ok s => [OutMsg.resultMsg id s]
    | .error _ => [OutMsg.errorMsg id .internalErr]
  match name with
  | "read_file" =>
    match params.arguments.bind (fun a => getStrArg a "path") with
    | none => [OutMsg.errorMsg id .invalidParams]
    | some _ => callEngine (params.arguments.getD [])
  | "write_file" =>
    match params.arguments with
    | none => [OutMsg.errorMsg id .invalidParams]
    | some args =>
      match getStrArg args "path", getStrArg args "content" with
      | none, _ => [OutMsg.errorMsg id .invalidParams]
      | some _, none => [OutMsg.errorMsg id .invalidParams]
      | some _, some _ => callEngine args
  | "list_files" => callEngine (params.arguments.getD [])
  | "search_files" =>
    match params.arguments.bind (fun a => getStrArg a "query") with
    | none => [OutMsg.errorMsg id .invalidParams]
    | some _ => callEngine (params.arguments.getD [])
  | "analyze_project" => callEngine (params.arguments.getD [])
  | "apply_suggestion" =>
    match params.arguments with
    | none => [OutMsg.errorMsg id .invalidParams]
    | some args =>
      match getStrArg args "path", getStrArg args "suggestion" with
      | none, _ => [OutMsg.errorMsg id .invalidParams]
      | some _, none => [OutMsg.errorMsg id .invalidParams]
      | some _, some _ =>
        match eng "parse_suggestion" args with
        | .error _ => [OutMsg.errorMsg id .invalidParams]
        | .ok _ => callEngine args
  | "generate_diff" =>
    match params.arguments with
    | none => [OutMsg.errorMsg id .invalidParams]
    | some args =>
      match getStrArg args "original", getStrArg args "modified" with
      | none, _ => [OutMsg.errorMsg id .invalidParams]
      | some _, none => [OutMsg.errorMsg id .invalidParams]
      | some _, some _ => callEngine args
  | "change_directory" =>
    match params.arguments.bind (fun a => getStrArg a "directory") with
    | none => [OutMsg.errorMsg id .invalidParams]
    | some _ => callEngine (params.arguments.getD [])
  | "create_file" =>
    match params.arguments with
    | none => [OutMsg.errorMsg id .invalidParams]
    | some args =>
      match getStrArg args "path", getStrArg args "content" with
      | none, _ => [OutMsg.errorMsg id .invalidParams]
      | some _, none => [OutMsg.errorMsg id .invalidParams]
      | some _, some _ => callEngine args
  | "rename_file" =>
    match params.arguments with
    | none => [OutMsg.errorMsg id .invalidParams]
    | some args =>
      match getStrArg args "from_path", getStrArg args "to_path" with
      | none, _ => [OutMsg.errorMsg id .invalidParams]
      | some _, none => [OutMsg.errorMsg id .invalidParams]
      | some _, some _ => callEngine args
  | "delete_file" =>
    match params.arguments.bind (fun a => getStrArg a "path") with
    | none => [OutMsg.errorMsg id .invalidParams]
    | some _ => callEngine (params.arguments.getD [])
  | _ => [OutMsg.errorMsg id .methodNotFound]

/-- `McpHandler::handle_request`: the fixed method table.  Note the
`tools/call` arm: `if let Some(params_val) = params { … }` has no `else`,
so a `tools/call` without a `params` field produces no response at all. -/
def handle_request (eng : Engine) (id : Nat) (method : String)
    (params : Option CallParams) : List OutMsg :=
  match method with
  | "initialize" => [OutMsg.resultMsg id "initialize"]
  | "tools/list" => [OutMsg.resultMsg id "tools"]
  | "tools/call" =>
    match params with
    | some p => handle_tools_call eng id p
    | none => []
  | "resources/list" => [OutMsg.resultMsg id "resources"]
  | "prompts/list" => [OutMsg.resultMsg id "prompts"]
  | _ => [OutMsg.errorMsg id .methodNotFound]

/-- One `Request` iteration of `McpHandler::launch_mcp`: `initialize` is
answered and flips the session flag; any other method is rejected with
`InvalidRequest` while uninitialized, and dispatched through
`handle_request` once initialized.  Returns the new flag and the
responses sent. -/
def processRequest (eng : Engine) (initializedFlag : Bool) (id : Nat)
    (method : String) (params : Option CallParams) : Bool × List OutMsg :=
  if method = "initialize" then (true, [OutMsg.resultMsg id "initialize"])
  else if initializedFlag = false then
    (false, [OutMsg.errorMsg id .invalidRequest])
  else (initializedFlag, handle_request eng id method params)

end McpHandler

section SplitLemmas

theorem splitNL_ne_nil (l : Content) : splitNL l ≠ [] := by
  induction l with
  | nil => simp [splitNL]
  | cons c rest ih =>
    simp only [splitNL]
    split
    · simp
    · match h : splitNL rest with
      | [] => simp
      | s :: ss => simp

theorem splitNL_cons_nl (u : Content) :
    splitNL ('\n' :: u) = [] :: splitNL u := by
  simp [splitNL]

theorem splitNL_cons_char {c : Char} (hc : ¬ (c = '\n')) {u : Content}
    {s : Content} {ss : List Content} (h : splitNL u = s :: ss) :
    splitNL (c :: u) = (c :: s) :: ss := by
  simp only [splitNL, if_neg hc, h]

/-- Splitting a newline-free sequence yields the single segment. -/
theorem splitNL_noNL {l : Content} (h : '\n' ∉ l) : splitNL l = [l] := by
  induction l with
  | nil => rfl
  | cons c rest ih =>
    simp only [List.mem_cons, not_or] at h
    have hc : ¬ (c = '\n') := fun hcc => h.1 hcc.symm
    simp only [splitNL, if_neg hc, ih h.2]

/-- A newline placed after a newline-free block starts a fresh segment. -/
theorem splitNL_noNL_append {a : Content} (b : Content) (h : '\n' ∉ a) :
    splitNL (a ++ '\n' :: b) = a :: splitNL b := by
  induction a with
  | nil => simp [splitNL]
  | cons c rest ih =>
    simp only [List.mem_cons, not_or] at h
    have hc : ¬ (c = '\n') := fun hcc => h.1 hcc.symm
    simp only [List.cons_append, splitNL, if_neg hc, List.append_eq, ih h.2]

/-- Every segment produced by `splitNL` is newline-free. -/
theorem splitNL_mem_noNL {l : Content} {x : Content} (hx : x ∈ splitNL l) :
    '\n' ∉ x := by
  induction l generalizing x with
  | nil =>
    simp only [splitNL, List.mem_singleton] at hx
    simp [hx]
  | cons c rest ih =>
    simp only [splitNL] at hx
    by_cases hc : c = '\n'
    · rw [if_pos hc] at hx
      rcases List.mem_cons.mp hx with h1 | h2
      · simp [h1]
      · exact ih h2
    · rw [if_neg hc] at hx
      match hrest : splitNL rest with
      | [] => exact absurd hrest (splitNL_ne_nil rest)
      | s :: ss =>
        rw [hrest] at hx
        rcases List.mem_cons.mp hx with h1 | h2
        · subst h1
          intro hmem
          rcases List.mem_cons.mp hmem with h3 | h4
          · exact hc h3.symm
          · exact ih (hrest ▸ List.mem_cons_self s ss) h4
        · exact ih (hrest ▸ List.mem_cons_of_mem s h2)

/-- `splitNL` is a left inverse of `joinNL` on non-empty lists of
newline-free segments. -/
theorem splitNL_joinNL {ls : List Content} (hnl : ∀ x ∈ ls, '\n' ∉ x)
    (hne : ls ≠ []) : splitNL (joinNL ls) = ls := by
  induction ls with
  | nil => exact absurd rfl hne
  | cons x xs ih =>
    by_cases hxs : xs = []
    · subst hxs
      exact splitNL_noNL (hnl x (List.mem_cons_self _ _))
    · have hjoin : joinNL (x :: xs) = x ++ '\n' :: joinNL xs := by
        match xs, hxs with
        | y :: ys, _ => rfl
      rw [hjoin, splitNL_noNL_append _ (hnl x (List.mem_cons_self _ _))]
      rw [ih (fun z hz => hnl z (List.mem_cons_of_mem x hz)) hxs]

/-- A newline splits the surrounding blocks into independent splits. -/
theorem splitNL_append_newline (u v : Content) :
    splitNL (u ++ '\n' :: v) = splitNL u ++ splitNL v := by
  induction u with
  | nil => simp [splitNL]
  | cons c u' ih =>
    by_cases hc : c = '\n'
    · subst hc
      simp only [List.cons_append, splitNL, if_pos rfl, List.append_eq, ih]
      rfl
    · simp only [List.cons_append, splitNL, if_neg hc, List.append_eq, ih]
      match h : splitNL u' with
      | [] => exact absurd h (splitNL_ne_nil u')
      | s :: ss => simp

theorem rustLines_eq_chopEmpty (l : Content) :
    rustLines l = chopEmpty (splitNL l) := rfl

theorem chopEmpty_append (a b : List Content) (hb : b ≠ []) :
    chopEmpty (a ++ b) = a ++ chopEmpty b := by
  unfold chopEmpty
  rw [List.getLast?_append_of_ne_nil a hb, List.dropLast_append_of_ne_nil a hb]
  split <;> rfl

theorem joinNL_eq_nil {ls : List Content} (h : joinNL ls = []) :
    ls = [] ∨ ls = [[]] := by
  match ls with
  | [] => exact Or.inl rfl
  | [x] => exact Or.inr (by simpa [joinNL] using h)
  | x :: y :: ys =>
    exfalso
    have : joinNL (x :: y :: ys) = x ++ '\n' :: joinNL (y :: ys) := rfl
    rw [this] at h
    simpa using congrArg List.length h

theorem getLast?_cons_ne_nil {α : Type _} (c : α) {t : List α} (h : t ≠ []) :
    (c :: t).getLast? = t.getLast? := by
  match t, h with
  | x :: xs, _ => simp [List.getLast?_cons_cons]

/-- A split with a single segment can only come from that very text. -/
theorem splitNL_eq_singleton {u s : Content} (h : splitNL u = [s]) : u = s := by
  induction u generalizing s with
  | nil =>
    simp only [splitNL, List.cons.injEq, and_true] at h
    exact h
  | cons c u' ih =>
    by_cases hc : c = '\n'
    · subst hc
      rw [splitNL_cons_nl] at h
      have hlen := congrArg List.length h
      simp only [List.length_cons, List.length_singleton,
        Nat.add_right_cancel_iff] at hlen
      exact absurd (List.length_eq_zero.mp hlen) (splitNL_ne_nil u')
    · match hs : splitNL u' with
      | [] => exact absurd hs (splitNL_ne_nil u')
      | t :: ts =>
        rw [splitNL_cons_char hc hs] at h
        simp only [List.cons.injEq] at h
        obtain ⟨h1, h2⟩ := h
        subst h2
        rw [← h1]
        rw [ih (by rw [hs])]

/-- The joined text ends with a newline exactly when its non-empty last
piece does. -/
theorem endsNL_joinNL_of_last {ls : List Content} {x : Content}
    (hlast : ls.getLast? = some x) (hne : x ≠ []) :
    endsNL (joinNL ls) = endsNL x := by
  induction ls with
  | nil => simp at hlast
  | cons y ys ih =>
    match ys, hlast with
    | [], hlast =>
      simp only [List.getLast?_singleton, Option.some.injEq] at hlast
      subst hlast; rfl
    | z :: zs, hlast =>
      have hl2 : (z :: zs).getLast? = some x := by
        rw [← hlast]; simp [List.getLast?_cons_cons]
      have hjoin : joinNL (y :: z :: zs) = y ++ '\n' :: joinNL (z :: zs) := rfl
      have hnn : joinNL (z :: zs) ≠ [] := by
        intro hz
        rcases joinNL_eq_nil hz with h1 | h1
        · simp at h1
        · rw [h1] at hl2
          simp only [List.getLast?_singleton, Option.some.injEq] at hl2
          exact hne hl2.symm
      rw [hjoin]
      unfold endsNL
      rw [List.getLast?_append_of_ne_nil y (by simp)]
      rw [getLast?_cons_ne_nil _ hnn]
      exact ih hl2

/-- `rustLines` inverts `joinNL` on newline-free pieces whose last piece is
non-empty. -/
theorem rustLines_joinNL {ls : List Content} (hnl : ∀ x ∈ ls, '\n' ∉ x)
    (hlast : ls.getLast? ≠ some ([] : Content)) :
    rustLines (joinNL ls) = ls := by
  match ls with
  | [] => rfl
  | l :: ls' =>
    rw [rustLines_eq_chopEmpty, splitNL_joinNL hnl (by simp)]
    unfold chopEmpty
    rw [if_neg hlast]

/-- Segments of a split are newline-free, hence so are the `rustLines`. -/
theorem rustLines_mem_noNL {l : Content} {x : Content}
    (hx : x ∈ rustLines l) : '\n' ∉ x := by
  rw [rustLines_eq_chopEmpty] at hx
  unfold chopEmpty at hx
  by_cases h : (splitNL l).getLast? = some ([] : Content)
  · rw [if_pos h] at hx
    exact splitNL_mem_noNL (List.dropLast_subset _ hx)
  · rw [if_neg h] at hx
    exact splitNL_mem_noNL hx

/-- A text that ends with a newline is a block followed by that newline. -/
theorem exists_of_endsNL {u : Content} (h : endsNL u = true) :
    u = u.dropLast ++ ['\n'] := by
  unfold endsNL at h
  simp only [decide_eq_true_eq] at h
  conv_lhs => rw [← List.dropLast_append_getLast? '\n' h]

/-- The split ends with an empty segment exactly for the empty text or a
text with a trailing newline. -/
theorem splitNL_last_empty_iff (u : Content) :
    ((splitNL u).getLast? = some ([] : Content)) ↔
      (u = [] ∨ endsNL u = true) := by
  induction u with
  | nil => simp [splitNL]
  | cons c u' ih =>
    by_cases hc : c = '\n'
    · subst hc
      rw [splitNL_cons_nl]
      rw [getLast?_cons_ne_nil _ (splitNL_ne_nil u'), ih]
      by_cases hu : u' = []
      · subst hu
        simp [endsNL]
      · have hends : endsNL ('\n' :: u') = endsNL u' := by
          unfold endsNL
          rw [getLast?_cons_ne_nil _ hu]
        simp [hu, hends]
    · match hs : splitNL u' with
      | [] => exact absurd hs (splitNL_ne_nil u')
      | s :: ss =>
        rw [splitNL_cons_char hc hs]
        rw [hs] at ih
        by_cases hss : ss = []
        · subst hss
          have hu : u' = s := splitNL_eq_singleton hs
          subst hu
          simp only [List.getLast?_singleton, Option.some.injEq]
          constructor
          · intro h; simp at h
          · rintro (h | h)
            · simp at h
            · exfalso
              unfold endsNL at h
              simp only [decide_eq_true_eq] at h
              by_cases hu2 : u' = []
              · subst hu2
                simp only [List.getLast?_singleton, Option.some.injEq] at h
                exact hc h
              · rw [getLast?_cons_ne_nil _ hu2] at h
                have h3 := ih.mpr (Or.inr (by simp [endsNL, h]))
                simp only [List.getLast?_singleton, Option.some.injEq] at h3
                exact hu2 h3
        · have hu2 : u' ≠ [] := by
            intro hu
            subst hu
            simp only [splitNL, List.cons.injEq] at hs
            exact hss hs.2.symm
          rw [getLast?_cons_ne_nil _ hss, ← getLast?_cons_ne_nil s hss, ih]
          have hends : endsNL (c :: u') = endsNL u' := by
            unfold endsNL
            rw [getLast?_cons_ne_nil _ hu2]
          simp [hu2, hends]

/-- If a non-empty text does not end with a newline, its split has no final
empty segment, so `rustLines` is exactly the split. -/
theorem splitNL_getLast?_ne_empty {u : Content} (hne : u ≠ [])
    (h : endsNL u = false) : (splitNL u).getLast? ≠ some ([] : Content) := by
  intro hcontra
  rcases (splitNL_last_empty_iff u).mp hcontra with h1 | h1
  · exact hne h1
  · rw [h] at h1
    exact Bool.false_ne_true h1

end SplitLemmas

section EditorLemmas

theorem insert_line_ok {content nc c : Content} {n : Nat}
    (h : FileEditor.insert_line content n c = .ok nc) :
    nc = joinNL ((rustLines content).insertIdx n c) := by
  simp only [FileEditor.insert_line] at h
  split at h
  · simp at h
  · exact (Except.ok.inj h).symm

theorem replace_line_ok {content nc c : Content} {n : Nat}
    (h : FileEditor.replace_line content n c = .ok nc) :
    nc = joinNL ((rustLines content).set n c) := by
  simp only [FileEditor.replace_line] at h
  split at h
  · simp at h
  · exact (Except.ok.inj h).symm

theorem delete_line_ok {content nc : Content} {n : Nat}
    (h : FileEditor.delete_line content n = .ok nc) :
    nc = joinNL ((rustLines content).eraseIdx n) := by
  simp only [FileEditor.delete_line] at h
  split at h
  · simp at h
  · exact (Except.ok.inj h).symm

theorem applyLineOp_ok {op : LineOp} {content newContent : Content}
    (h : applyLineOp op content = .ok newContent) :
    newContent = joinNL (editedLines op content) := by
  cases op with
  | insertOp n c =>
    simp only [applyLineOp] at h
    simpa [editedLines] using insert_line_ok h
  | replaceOp n c =>
    simp only [applyLineOp] at h
    simpa [editedLines] using replace_line_ok h
  | deleteOp n =>
    simp only [applyLineOp] at h
    simpa [editedLines] using delete_line_ok h

theorem chopEmpty_eq_self {ss : List Content}
    (h : ss.getLast? ≠ some ([] : Content)) : chopEmpty ss = ss := by
  unfold chopEmpty
  rw [if_neg h]

theorem getLast?_drop_eq {l : List Content} {n : Nat} (h : l.drop n ≠ []) :
    (l.drop n).getLast? = l.getLast? := by
  conv_rhs => rw [← List.take_append_drop n l]
  rw [List.getLast?_append_of_ne_nil _ h]

/-- Appending a newline-separated tail (the way `edit_region` glues the
kept suffix back on) appends those lines to the `rustLines` of the head. -/
theorem rustLines_append_sep_joinNL {u : Content} {S : List Content}
    (hu : u ≠ []) (hS : S ≠ []) (hSnl : ∀ x ∈ S, '\n' ∉ x)
    (hSlast : S.getLast? ≠ some ([] : Content)) :
    rustLines (u ++ ((if endsNL u then [] else ['\n']) ++ joinNL S)) =
      rustLines u ++ S := by
  by_cases he : endsNL u = true
  · rw [if_pos he, List.nil_append]
    have hw : u = u.dropLast ++ ['\n'] := exists_of_endsNL he
    have h1 : u ++ joinNL S = u.dropLast ++ '\n' :: joinNL S := by
      conv_lhs => rw [hw]
      simp
    have h2 : splitNL u = splitNL u.dropLast ++ [([] : Content)] := by
      conv_lhs => rw [hw]
      have : u.dropLast ++ ['\n'] = u.dropLast ++ '\n' :: ([] : Content) := rfl
      rw [this, splitNL_append_newline]
      rfl
    rw [h1, rustLines_eq_chopEmpty, splitNL_append_newline,
      splitNL_joinNL hSnl hS, chopEmpty_append _ _ hS, chopEmpty_eq_self hSlast]
    rw [rustLines_eq_chopEmpty, h2, chopEmpty_append _ _ (by simp)]
    have h3 : chopEmpty [([] : Content)] = [] := rfl
    rw [h3, List.append_nil]
  · have he' : endsNL u = false := Bool.eq_false_iff.mpr he
    rw [if_neg (by simp [he']), List.singleton_append]
    rw [rustLines_eq_chopEmpty, splitNL_append_newline,
      splitNL_joinNL hSnl hS, chopEmpty_append _ _ hS, chopEmpty_eq_self hSlast]
    rw [rustLines_eq_chopEmpty,
      chopEmpty_eq_self (splitNL_getLast?_ne_empty hu he')]

/-- Prefixing newline-free lines (the way `edit_region` glues the kept
prefix on) prepends those lines to the `rustLines` of the tail. -/
theorem rustLines_joinNL_prefix {P : List Content} {v : Content}
    (hP : P ≠ []) (hPnl : ∀ x ∈ P, '\n' ∉ x) :
    rustLines (joinNL P ++ '\n' :: v) = P ++ rustLines v := by
  rw [rustLines_eq_chopEmpty, splitNL_append_newline, splitNL_joinNL hPnl hP,
    chopEmpty_append _ _ (splitNL_ne_nil v), ← rustLines_eq_chopEmpty]

end EditorLemmas

section ServiceLemmas

theorem alookup_aupdate_self {α : Type _} (m : List (FPath × α)) (p : FPath)
    (v : α) : alookup (aupdate m p v) p = some v := by
  induction m with
  | nil => simp [aupdate, alookup]
  | cons e rest ih =>
    obtain ⟨q, w⟩ := e
    by_cases h : q = p
    · simp [aupdate, alookup, h]
    · simp [aupdate, alookup, h, ih]

theorem alookup_aupdate_ne {α : Type _} (m : List (FPath × α)) {p q : FPath}
    (v : α) (h : p ≠ q) : alookup (aupdate m p v) q = alookup m q := by
  induction m with
  | nil => simp [aupdate, alookup, h]
  | cons e rest ih =>
    obtain ⟨r, w⟩ := e
    by_cases hr : r = p
    · subst hr
      simp [aupdate, alookup, h]
    · simp [aupdate, alookup, hr, ih]

/-- `create_backup` on an existing file: the file table is untouched and
the file's bucket gains the current content in front, pruned to the
maximum. -/
theorem create_backup_ok {st : SState} {p : FPath} {c : Content}
    (h : alookup st.files p = some c) :
    ∃ st1, BackupManager.create_backup st p = .ok st1 ∧
      st1.files = st.files ∧
      BackupManager.list_backups st1 p =
        (c :: BackupManager.list_backups st p).take MAX_BACKUPS_PER_FILE := by
  refine ⟨⟨st.files, aupdate st.backups p
      ((c :: BackupManager.list_backups st p).take MAX_BACKUPS_PER_FILE)⟩,
    ?_, rfl, ?_⟩
  · simp [BackupManager.create_backup, h]
  · simp [BackupManager.list_backups, alookup_aupdate_self]

theorem head?_take_cons (c : Content) (l : List Content) :
    ((c :: l).take MAX_BACKUPS_PER_FILE).head? = some c := by
  simp [MAX_BACKUPS_PER_FILE, List.take_succ_cons]

theorem ne_nil_take_cons (c : Content) (l : List Content) :
    (c :: l).take MAX_BACKUPS_PER_FILE ≠ [] := by
  simp [MAX_BACKUPS_PER_FILE, List.take_succ_cons]

/-- `FileEditor::write_file` never touches the backup store. -/
theorem list_backups_writeF (st : SState) (p q : FPath) (c : Content) :
    BackupManager.list_backups (writeF st p c) q =
      BackupManager.list_backups st q := rfl

theorem backups_editorFS_insert (st : SState) (p : FPath) (n : Nat)
    (c : Content) :
    (FileEditorFS.insert_line st p n c).1.backups = st.backups := by
  unfold FileEditorFS.insert_line
  split
  · rfl
  · split <;> rfl

theorem backups_editorFS_replace (st : SState) (p : FPath) (n : Nat)
    (c : Content) :
    (FileEditorFS.replace_line st p n c).1.backups = st.backups := by
  unfold FileEditorFS.replace_line
  split
  · rfl
  · split <;> rfl

theorem backups_editorFS_delete (st : SState) (p : FPath) (n : Nat) :
    (FileEditorFS.delete_line st p n).1.backups = st.backups := by
  unfold FileEditorFS.delete_line
  split
  · rfl
  · split <;> rfl

theorem backups_editorFS_region (st : SState) (p : FPath)
    (startLine endLine : Nat) (c : Content) :
    (FileEditorFS.edit_region st p startLine endLine c).1.backups =
      st.backups := by
  unfold FileEditorFS.edit_region
  split
  · rfl
  · split <;> rfl

/-- The edit loop of `apply_suggestion` never touches the backup store. -/
theorem backups_runEditAction (st : SState) (p : FPath) (a : EditAction) :
    (runEditAction st p a).1.backups = st.backups := by
  cases a with
  | insertA n c => exact backups_editorFS_insert st p n c
  | replaceA n c => exact backups_editorFS_replace st p n c
  | deleteA n => exact backups_editorFS_delete st p n
  | regionA s e c => exact backups_editorFS_region st p s e c
  | unknownA name => rfl

theorem backups_applyEditLoop (es : List EditAction) (st : SState)
    (p : FPath) : (applyEditLoop st p es).1.backups = st.backups := by
  induction es generalizing st with
  | nil => rfl
  | cons a rest ih =>
    unfold applyEditLoop
    have hb := backups_runEditAction st p a
    rcases hact : runEditAction st p a with ⟨st1, r⟩
    rw [hact] at hb
    rcases r with e | v
    · exact hb
    · simpa [ih st1] using hb

end ServiceLemmas

section DiffLemmas

/-- A hunk of equal lines has no changes. -/
theorem hunkHasChanges_all_equal {lns : List Change}
    (h : ∀ l ∈ lns, l.tag = ChangeTag.equalTag) :
    hunkHasChanges lns = false := by
  simp only [hunkHasChanges, List.any_eq_false, decide_eq_true_eq,
    Decidable.not_not]
  exact h

/-- After any step the accumulator is active. -/
theorem stepChange_inHunk (s : DState) (c : Change) :
    (stepChange s c).inHunk = true := by
  rcases c with ⟨tag, text⟩
  cases tag
  · simp only [stepChange]
    split
    · next hin => simpa using hin
    · rfl
  · simp only [stepChange]
    split
    · next hin => simpa using hin
    · rfl
  · simp only [stepChange]
    split
    · next hin => simpa using hin
    · rfl

/-- A step extends the accumulator by at most one line and emits
nothing. -/
theorem stepChange_lines_le {s : DState} {c : Change}
    (hlen : s.hunkLines.length ≤ 3)
    (hempty : s.inHunk = false → s.hunkLines = []) :
    (stepChange s c).hunkLines.length ≤ 4 ∧
    (stepChange s c).out = s.out := by
  rcases c with ⟨tag, text⟩
  cases tag
  · simp only [stepChange]
    split
    · refine ⟨?_, rfl⟩
      simp only [List.length_append, List.length_singleton]
      omega
    · exact ⟨by simp, rfl⟩
  · simp only [stepChange]
    split
    · refine ⟨?_, rfl⟩
      simp only [List.length_append, List.length_singleton]
      omega
    · next hin =>
      refine ⟨?_, rfl⟩
      rw [hempty (by simpa using hin)]
      simp
  · simp only [stepChange]
    split
    · refine ⟨?_, rfl⟩
      simp only [List.length_append, List.length_singleton]
      omega
    · next hin =>
      refine ⟨?_, rfl⟩
      rw [hempty (by simpa using hin)]
      simp

/-- The invariant the rendering loop maintains: every emitted hunk has a
change and at most 4 lines, the accumulator holds at most 3 lines, and an
inactive accumulator is empty. -/
def WellFlushed (s : DState) : Prop :=
  (∀ h ∈ s.out, hunkHasChanges h.lns = true ∧ h.lns.length ≤ 4) ∧
  s.hunkLines.length ≤ 3 ∧
  (s.inHunk = false → s.hunkLines = [])

theorem flushIfBig_wellFlushed {s : DState}
    (hout : ∀ h ∈ s.out, hunkHasChanges h.lns = true ∧ h.lns.length ≤ 4)
    (hlen : s.hunkLines.length ≤ 4)
    (hin : s.inHunk = false → s.hunkLines = []) :
    WellFlushed (flushIfBig s) := by
  unfold flushIfBig
  by_cases hc : s.inHunk = true ∧ s.hunkLines.length > 3
  · rw [if_pos hc]
    refine ⟨?_, by simp, by simp⟩
    intro h hh
    by_cases hch : hunkHasChanges s.hunkLines = true
    · rw [if_pos hch] at hh
      simp only [List.mem_append, List.mem_singleton] at hh
      rcases hh with h1 | h1
      · exact hout h h1
      · subst h1
        exact ⟨hch, by simpa [mkHunk] using hlen⟩
    · rw [if_neg hch] at hh
      exact hout h hh
  · rw [if_neg hc]
    refine ⟨hout, ?_, hin⟩
    rcases Decidable.not_and_iff_or_not.mp hc with h1 | h1
    · rw [hin (by simpa using h1)]
      simp
    · omega

theorem stepFull_wellFlushed {s : DState} (c : Change)
    (hs : WellFlushed s) : WellFlushed (stepFull s c) := by
  obtain ⟨hout, hlen, hempty⟩ := hs
  obtain ⟨hlen2, hout2⟩ := stepChange_lines_le (c := c) hlen hempty
  unfold stepFull
  apply flushIfBig_wellFlushed
  · rw [hout2]
    exact hout
  · exact hlen2
  · intro hfalse
    rw [stepChange_inHunk s c] at hfalse
    simp at hfalse

theorem foldl_wellFlushed (cs : List Change) :
    ∀ s : DState, WellFlushed s → WellFlushed (cs.foldl stepFull s) := by
  induction cs with
  | nil => exact fun s hs => hs
  | cons c rest ih =>
    intro s hs
    exact ih _ (stepFull_wellFlushed c hs)

theorem finishDiff_good {s : DState} (hs : WellFlushed s) :
    ∀ h ∈ (finishDiff s).out,
      hunkHasChanges h.lns = true ∧ h.lns.length ≤ 4 := by
  obtain ⟨hout, hlen, _⟩ := hs
  unfold finishDiff
  by_cases hc : s.inHunk = true ∧ s.hunkLines ≠ []
  · rw [if_pos hc]
    intro h hh
    by_cases hch : hunkHasChanges s.hunkLines = true
    · rw [if_pos hch] at hh
      simp only [List.mem_append, List.mem_singleton] at hh
      rcases hh with h1 | h1
      · exact hout h h1
      · subst h1
        exact ⟨hch, by simpa [mkHunk] using hlen.trans (by omega)⟩
    · rw [if_neg hch] at hh
      exact hout h hh
  · rw [if_neg hc]
    exact hout

/-- Flushing a hunk of equal lines emits nothing. -/
theorem flushIfBig_equal {s : DState} (hout : s.out = [])
    (hlines : ∀ l ∈ s.hunkLines, l.tag = ChangeTag.equalTag) :
    (flushIfBig s).out = [] ∧
      ∀ l ∈ (flushIfBig s).hunkLines, l.tag = ChangeTag.equalTag := by
  unfold flushIfBig
  split
  · rw [hunkHasChanges_all_equal hlines]
    simp [hout]
  · exact ⟨hout, hlines⟩

/-- An equal step keeps the accumulator all-equal and emits nothing. -/
theorem stepChange_equal {s : DState} {text : Content}
    (hout : s.out = [])
    (hlines : ∀ l ∈ s.hunkLines, l.tag = ChangeTag.equalTag) :
    (stepChange s ⟨ChangeTag.equalTag, text⟩).out = [] ∧
      ∀ l ∈ (stepChange s ⟨ChangeTag.equalTag, text⟩).hunkLines,
        l.tag = ChangeTag.equalTag := by
  simp only [stepChange]
  split
  · refine ⟨hout, ?_⟩
    intro l hl
    simp only [List.mem_append, List.mem_singleton] at hl
    rcases hl with h1 | h1
    · exact hlines l h1
    · subst h1
      rfl
  · refine ⟨hout, ?_⟩
    intro l hl
    simp only [List.mem_singleton] at hl
    subst hl
    rfl

theorem stepFull_equal {s : DState} {c : Change}
    (hc : c.tag = ChangeTag.equalTag) (hout : s.out = [])
    (hlines : ∀ l ∈ s.hunkLines, l.tag = ChangeTag.equalTag) :
    (stepFull s c).out = [] ∧
      ∀ l ∈ (stepFull s c).hunkLines, l.tag = ChangeTag.equalTag := by
  rcases c with ⟨tag, text⟩
  simp only at hc
  subst hc
  obtain ⟨h1, h2⟩ := @stepChange_equal s text hout hlines
  exact flushIfBig_equal h1 h2

theorem foldl_equal (cs : List Change)
    (hcs : ∀ c ∈ cs, c.tag = ChangeTag.equalTag) :
    ∀ s : DState, s.out = [] →
      (∀ l ∈ s.hunkLines, l.tag = ChangeTag.equalTag) →
      (cs.foldl stepFull s).out = [] ∧
        ∀ l ∈ (cs.foldl stepFull s).hunkLines, l.tag = ChangeTag.equalTag := by
  induction cs with
  | nil => exact fun s h1 h2 => ⟨h1, h2⟩
  | cons c rest ih =>
    intro s h1 h2
    obtain ⟨h1', h2'⟩ :=
      stepFull_equal (hcs c (List.mem_cons_self _ _)) h1 h2
    exact ih (fun x hx => hcs x (List.mem_cons_of_mem _ hx)) _ h1' h2'

theorem lcsDiffFuel_self (l : List Content) :
    ∀ fuel : Nat, 2 * l.length ≤ fuel →
      lcsDiffFuel fuel l l = l.map (fun x => ⟨ChangeTag.equalTag, x⟩) := by
  induction l with
  | nil =>
    intro fuel _
    match fuel with
    | 0 => rfl
    | fuel + 1 => rfl
  | cons x xs ih =>
    intro fuel hfuel
    match fuel, hfuel with
    | fuel + 1, hfuel =>
      simp only [lcsDiffFuel, eq_self_iff_true, ite_true, List.map_cons,
        List.cons.injEq, true_and]
      exact ih fuel (by simp only [List.length_cons] at hfuel; omega)

/-- Aligning a line sequence with itself yields only equal opcodes. -/
theorem lcsDiff_self (l : List Content) :
    lcsDiff l l = l.map (fun x => ⟨ChangeTag.equalTag, x⟩) := by
  unfold lcsDiff
  exact lcsDiffFuel_self l _ (by omega)

end DiffLemmas

section BackupRunLemmas

theorem take_append_take {α : Type _} (a b : List α) (n : Nat) :
    (a ++ b.take n).take n = (a ++ b).take n := by
  rw [List.take_append_eq_append_take, List.take_append_eq_append_take,
    List.take_take]
  congr 2
  omega

/-- The bucket after a run of snapshots: the run's contents newest first,
in front of the bucket's prior contents, pruned to the maximum. -/
theorem snapshotRun_backups (cs : List Content) :
    ∀ st : SState, ∀ p : FPath,
      (BackupManager.list_backups st p).length ≤ MAX_BACKUPS_PER_FILE →
      BackupManager.list_backups (snapshotRun st p cs) p =
        (cs.reverse ++ BackupManager.list_backups st p).take
          MAX_BACKUPS_PER_FILE := by
  induction cs with
  | nil =>
    intro st p h
    simp [snapshotRun, List.take_of_length_le h]
  | cons c rest ih =>
    intro st p h
    have hlk : alookup (writeF st p c).files p = some c :=
      alookup_aupdate_self _ _ _
    obtain ⟨st2, hcb, hfiles, hlist⟩ := create_backup_ok hlk
    simp only [snapshotRun, hcb]
    have hlb1 : BackupManager.list_backups (writeF st p c) p =
        BackupManager.list_backups st p := rfl
    rw [hlb1] at hlist
    have hlen2 : (BackupManager.list_backups st2 p).length ≤
        MAX_BACKUPS_PER_FILE := by
      rw [hlist, List.length_take]
      omega
    rw [ih st2 p hlen2, hlist, take_append_take]
    congr 1
    simp [List.reverse_cons, List.append_assoc]

end BackupRunLemmas

/-! ## Claim theorems -/

/-- **C6**: for a file with `n` current lines, `replace_line` and
`delete_line` at index `n` fail with `LineOutOfRange`, `insert_line` at
index `n` succeeds and appends the line at the end, all three succeed at
any index strictly below `n`, and `insert_line` strictly above `n` fails
with `LineOutOfRange`. -/
theorem c6_line_index_bounds (content newLine : Content) :
    (FileEditor.replace_line content (rustLines content).length newLine =
      .error (.lineOutOfRange (rustLines content).length)) ∧
    (FileEditor.delete_line content (rustLines content).length =
      .error (.lineOutOfRange (rustLines content).length)) ∧
    (FileEditor.insert_line content (rustLines content).length newLine =
      .ok (joinNL (rustLines content ++ [newLine]))) ∧
    (∀ i, i < (rustLines content).length →
      (∃ r, FileEditor.insert_line content i newLine = .ok r) ∧
      (∃ r, FileEditor.replace_line content i newLine = .ok r) ∧
      (∃ r, FileEditor.delete_line content i = .ok r)) ∧
    (∀ i, i > (rustLines content).length →
      FileEditor.insert_line content i newLine =
        .error (.lineOutOfRange i)) := by
  refine ⟨?_, ?_, ?_, ?_, ?_⟩
  · simp [FileEditor.replace_line]
  · simp [FileEditor.delete_line]
  · simp [FileEditor.insert_line, List.insertIdx_length_self]
  · intro i hi
    refine ⟨⟨joinNL ((rustLines content).insertIdx i newLine), ?_⟩,
      ⟨joinNL ((rustLines content).set i newLine), ?_⟩,
      ⟨joinNL ((rustLines content).eraseIdx i), ?_⟩⟩
    · simp [FileEditor.insert_line, show ¬ i > (rustLines content).length by omega]
    · simp [FileEditor.replace_line, show ¬ i ≥ (rustLines content).length by omega]
    · simp [FileEditor.delete_line, show ¬ i ≥ (rustLines content).length by omega]
  · intro i hi
    simp [FileEditor.insert_line, hi]

/-- **C6 witness**: the bound behaviors at the concrete two-line file
`"a\nb"`. -/
theorem c6_line_index_bounds_witness :
    (∃ r, FileEditor.insert_line (str "a\nb") 0 (str "c") = .ok r) ∧
    FileEditor.insert_line (str "a\nb") 3 (str "c") =
      .error (.lineOutOfRange 3) :=
  ⟨((c6_line_index_bounds (str "a\nb") (str "c")).2.2.2.1 0 (by decide)).1,
    (c6_line_index_bounds (str "a\nb") (str "c")).2.2.2.2 3 (by decide)⟩

/-- **C10 counterexample**: the file `"a\n\n"` ends with a newline, and
the successful `replace_line 0 "b"` rewrites it to `"b\n"`, which still
ends with a newline — refuting the claim that after any successful line
edit the content never ends with a newline. -/
theorem c10_counterexample :
    endsNL (str "a\n\n") = true ∧
    FileEditor.replace_line (str "a\n\n") 0 (str "b") = .ok (str "b\n") ∧
    endsNL (str "b\n") = true :=
  ⟨by decide, by rfl, by decide⟩

/-- **C10** (amended): every successful line edit rewrites the file as
the edited line list joined with a single newline and no trailing
separator; hence the rewritten content does not end with a newline
whenever the edited list's last line is non-empty and itself free of a
trailing newline (the trailing newline of the original file is not
preserved in that case). -/
theorem c10_join_drops_trailing_newline (op : LineOp)
    (content newContent : Content)
    (h : applyLineOp op content = .ok newContent) :
    newContent = joinNL (editedLines op content) ∧
    (∀ x, (editedLines op content).getLast? = some x → x ≠ [] →
      endsNL x = false → endsNL newContent = false) := by
  refine ⟨applyLineOp_ok h, ?_⟩
  intro x hx hxne hxnl
  rw [applyLineOp_ok h, endsNL_joinNL_of_last hx hxne]
  exact hxnl

/-- **C10 witness**: replacing line 0 of `"a\nb"` by `"b"` yields
`"b\nb"`, which does not end with a newline. -/
theorem c10_join_drops_trailing_newline_witness :
    applyLineOp (.replaceOp 0 (str "b")) (str "a\nb") = .ok (str "b\nb") ∧
    endsNL (str "b\nb") = false :=
  ⟨by rfl,
    (c10_join_drops_trailing_newline (.replaceOp 0 (str "b")) (str "a\nb")
      (str "b\nb") (by rfl)).2 (str "b") (by rfl) (by decide) (by decide)⟩

/-- **C2**: every mutating service operation that succeeds on a
pre-existing target first records a backup holding exactly the bytes the
file had before the mutation (the newest entry of `list_backups`), while
any of the operations that succeeds on a path with no pre-existing file —
in particular `create_file` — leaves the target's backup bucket
untouched. -/
theorem c2_backup_before_mutate (op : SOp) (st st' : SState) (p : FPath)
    (h : runSOp op st p = (st', Except.ok ())) :
    (∀ c, alookup st.files p = some c →
      BackupManager.list_backups st' p ≠ [] ∧
      (BackupManager.list_backups st' p).head? = some c) ∧
    (alookup st.files p = none →
      BackupManager.list_backups st' p = BackupManager.list_backups st p) := by
  cases op with
  | writeOp c =>
    simp only [runSOp, FileService.write_file] at h
    constructor
    · intro c0 hlk
      rw [hlk] at h
      simp only [Option.isSome_some, if_true] at h
      obtain ⟨st1, hcb, hfiles, hlist⟩ := create_backup_ok hlk
      rw [hcb] at h
      injection h with h1 h2
      subst h1
      rw [list_backups_writeF, hlist]
      exact ⟨ne_nil_take_cons _ _, head?_take_cons _ _⟩
    · intro hlk
      rw [hlk] at h
      simp only [Option.isSome_none, Bool.false_eq_true, if_false] at h
      injection h with h1 h2
      subst h1
      rfl
  | appendOp c =>
    simp only [runSOp, FileService.append_to_file] at h
    constructor
    · intro c0 hlk
      rw [hlk] at h
      obtain ⟨st1, hcb, hfiles, hlist⟩ := create_backup_ok hlk
      simp only [hcb] at h
      injection h with h1 h2
      subst h1
      rw [list_backups_writeF, hlist]
      exact ⟨ne_nil_take_cons _ _, head?_take_cons _ _⟩
    · intro hlk
      rw [hlk] at h
      simp at h
  | insertLineOp n c =>
    simp only [runSOp, FileService.insert_line] at h
    constructor
    · intro c0 hlk
      rw [hlk] at h
      simp only [Option.isNone_some, Bool.false_eq_true, if_false] at h
      obtain ⟨st1, hcb, hfiles, hlist⟩ := create_backup_ok hlk
      simp only [hcb] at h
      rcases hfs : FileEditorFS.insert_line st1 p n c with ⟨st2, r2⟩
      have hbk : st2.backups = st1.backups := by
        have hb0 := backups_editorFS_insert st1 p n c
        rw [hfs] at hb0
        exact hb0
      rw [hfs] at h
      rcases r2 with e | v
      · simp at h
      · injection h with h1 h2
        subst h1
        simp only [BackupManager.list_backups, hbk]
        rw [show (alookup st1.backups p).getD [] =
            BackupManager.list_backups st1 p from rfl, hlist]
        exact ⟨ne_nil_take_cons _ _, head?_take_cons _ _⟩
    · intro hlk
      rw [hlk] at h
      simp at h
  | replaceLineOp n c =>
    simp only [runSOp, FileService.replace_line] at h
    constructor
    · intro c0 hlk
      rw [hlk] at h
      simp only [Option.isNone_some, Bool.false_eq_true, if_false] at h
      obtain ⟨st1, hcb, hfiles, hlist⟩ := create_backup_ok hlk
      simp only [hcb] at h
      rcases hfs : FileEditorFS.replace_line st1 p n c with ⟨st2, r2⟩
      have hbk : st2.backups = st1.backups := by
        have hb0 := backups_editorFS_replace st1 p n c
        rw [hfs] at hb0
        exact hb0
      rw [hfs] at h
      rcases r2 with e | v
      · simp at h
      · injection h with h1 h2
        subst h1
        simp only [BackupManager.list_backups, hbk]
        rw [show (alookup st1.backups p).getD [] =
            BackupManager.list_backups st1 p from rfl, hlist]
        exact ⟨ne_nil_take_cons _ _, head?_take_cons _ _⟩
    · intro hlk
      rw [hlk] at h
      simp at h
  | deleteLineOp n =>
    simp only [runSOp, FileService.delete_line] at h
    constructor
    · intro c0 hlk
      rw [hlk] at h
      simp only [Option.isNone_some, Bool.false_eq_true, if_false] at h
      obtain ⟨st1, hcb, hfiles, hlist⟩ := create_backup_ok hlk
      simp only [hcb] at h
      rcases hfs : FileEditorFS.delete_line st1 p n with ⟨st2, r2⟩
      have hbk : st2.backups = st1.backups := by
        have hb0 := backups_editorFS_delete st1 p n
        rw [hfs] at hb0
        exact hb0
      rw [hfs] at h
      rcases r2 with e | v
      · simp at h
      · injection h with h1 h2
        subst h1
        simp only [BackupManager.list_backups, hbk]
        rw [show (alookup st1.backups p).getD [] =
            BackupManager.list_backups st1 p from rfl, hlist]
        exact ⟨ne_nil_take_cons _ _, head?_take_cons _ _⟩
    · intro hlk
      rw [hlk] at h
      simp at h
  | regionOp s e c =>
    simp only [runSOp, FileService.edit_region] at h
    constructor
    · intro c0 hlk
      rw [hlk] at h
      simp only [Option.isNone_some, Bool.false_eq_true, if_false] at h
      obtain ⟨st1, hcb, hfiles, hlist⟩ := create_backup_ok hlk
      simp only [hcb] at h
      rcases hfs : FileEditorFS.edit_region st1 p s e c with ⟨st2, r2⟩
      have hbk : st2.backups = st1.backups := by
        have hb0 := backups_editorFS_region st1 p s e c
        rw [hfs] at hb0
        exact hb0
      rw [hfs] at h
      rcases r2 with e2 | v
      · simp at h
      · injection h with h1 h2
        subst h1
        simp only [BackupManager.list_backups, hbk]
        rw [show (alookup st1.backups p).getD [] =
            BackupManager.list_backups st1 p from rfl, hlist]
        exact ⟨ne_nil_take_cons _ _, head?_take_cons _ _⟩
    · intro hlk
      rw [hlk] at h
      simp at h
  | deleteFileOp =>
    simp only [runSOp, FileService.delete_file] at h
    constructor
    · intro c0 hlk
      rw [hlk] at h
      obtain ⟨st1, hcb, hfiles, hlist⟩ := create_backup_ok hlk
      simp only [hcb] at h
      injection h with h1 h2
      subst h1
      simp only [BackupManager.list_backups]
      rw [show (alookup st1.backups p).getD [] =
          BackupManager.list_backups st1 p from rfl, hlist]
      exact ⟨ne_nil_take_cons _ _, head?_take_cons _ _⟩
    · intro hlk
      rw [hlk] at h
      simp at h
  | renameOp dst =>
    simp only [runSOp, FileService.rename_file] at h
    constructor
    · intro c0 hlk
      simp only [hlk] at h
      by_cases hdst : (alookup st.files dst).isSome
      · rw [if_pos hdst] at h
        simp at h
      · rw [if_neg hdst] at h
        obtain ⟨st1, hcb, hfiles, hlist⟩ := create_backup_ok hlk
        simp only [hcb] at h
        injection h with h1 h2
        subst h1
        simp only [BackupManager.list_backups]
        rw [show (alookup st1.backups p).getD [] =
            BackupManager.list_backups st1 p from rfl, hlist]
        exact ⟨ne_nil_take_cons _ _, head?_take_cons _ _⟩
    · intro hlk
      rw [hlk] at h
      simp at h
  | createOp c =>
    simp only [runSOp, FileService.create_file] at h
    constructor
    · intro c0 hlk
      rw [hlk] at h
      simp at h
    · intro hlk
      rw [hlk] at h
      simp only [Option.isSome_none, Bool.false_eq_true, if_false] at h
      injection h with h1 h2
      subst h1
      rfl
  | suggestOp sg =>
    simp only [runSOp] at h
    rcases hap : FileService.apply_suggestion st p sg with ⟨stf, r⟩
    rw [hap] at h
    injection h with h1 h2
    subst h1
    rcases r with e | rs
    · simp [Except.map] at h2
    · simp only [FileService.apply_suggestion] at hap
      constructor
      · intro c0 hlk
        rw [hlk] at hap
        obtain ⟨st1, hcb, hfiles, hlist⟩ := create_backup_ok hlk
        simp only [Option.isSome_some, if_true, hcb] at hap
        cases sg with
        | replaceSug content =>
          cases content with
          | none =>
            have hap2 : (st1, Except.error ServiceError.suggestionError) =
                (stf, Except.ok rs) := hap
            simp at hap2
          | some c =>
            have hap2 : (writeF st1 p c, Except.ok ([] : List OpResult)) =
                (stf, Except.ok rs) := hap
            injection hap2 with hap1 _
            rw [← hap1]
            rw [list_backups_writeF, hlist]
            exact ⟨ne_nil_take_cons _ _, head?_take_cons _ _⟩
        | editSug edits =>
          cases edits with
          | none =>
            have hap2 : (st1, Except.error ServiceError.suggestionError) =
                (stf, Except.ok rs) := hap
            simp at hap2
          | some es =>
            have hap2 : applyEditLoop st1 p es = (stf, Except.ok rs) := hap
            have hbk := backups_applyEditLoop es st1 p
            rw [hap2] at hbk
            have hbk2 : stf.backups = st1.backups := hbk
            simp only [BackupManager.list_backups, hbk2]
            rw [show (alookup st1.backups p).getD [] =
                BackupManager.list_backups st1 p from rfl, hlist]
            exact ⟨ne_nil_take_cons _ _, head?_take_cons _ _⟩
        | createSug content overwrite =>
          cases content with
          | none =>
            have hap2 : (st1, Except.error ServiceError.suggestionError) =
                (stf, Except.ok rs) := hap
            simp at hap2
          | some c =>
            have hap2 : (if (alookup st1.files p).isSome = true then
                (if overwrite.getD false = false then
                  (st1, Except.error ServiceError.suggestionError)
                else
                  match BackupManager.create_backup st1 p with
                  | Except.error e => (st1, Except.error e)
                  | Except.ok st2 => (writeF st2 p c, Except.ok []))
              else (writeF st1 p c, Except.ok [])) = (stf, Except.ok rs) := hap
            have hlk1 : alookup st1.files p = some c0 := by
              rw [hfiles]
              exact hlk
            rw [hlk1] at hap2
            simp only [Option.isSome_some, if_true] at hap2
            by_cases how : overwrite.getD false = false
            · rw [if_pos how] at hap2
              simp at hap2
            · rw [if_neg how] at hap2
              obtain ⟨st2, hcb2, hfiles2, hlist2⟩ := create_backup_ok hlk1
              simp only [hcb2] at hap2
              injection hap2 with hap1 _
              rw [← hap1]
              rw [list_backups_writeF, hlist2, hlist]
              constructor
              · exact ne_nil_take_cons _ _
              · exact head?_take_cons _ _
        | unknownSug =>
          have hap2 : (st1, Except.error ServiceError.suggestionError) =
              (stf, Except.ok rs) := hap
          simp at hap2
      · intro hlk
        rw [hlk] at hap
        simp only [Option.isSome_none, Bool.false_eq_true, if_false] at hap
        cases sg with
        | replaceSug content =>
          cases content with
          | none =>
            have hap2 : (st, Except.error ServiceError.suggestionError) =
                (stf, Except.ok rs) := hap
            simp at hap2
          | some c =>
            have hap2 : (writeF st p c, Except.ok ([] : List OpResult)) =
                (stf, Except.ok rs) := hap
            injection hap2 with hap1 _
            rw [← hap1]
            rfl
        | editSug edits =>
          cases edits with
          | none =>
            have hap2 : (st, Except.error ServiceError.suggestionError) =
                (stf, Except.ok rs) := hap
            simp at hap2
          | some es =>
            have hap2 : applyEditLoop st p es = (stf, Except.ok rs) := hap
            have hbk := backups_applyEditLoop es st p
            rw [hap2] at hbk
            have hbk2 : stf.backups = st.backups := hbk
            simp only [BackupManager.list_backups, hbk2]
        | createSug content overwrite =>
          cases content with
          | none =>
            have hap2 : (st, Except.error ServiceError.suggestionError) =
                (stf, Except.ok rs) := hap
            simp at hap2
          | some c =>
            have hap2 : (if (alookup st.files p).isSome = true then
                (if overwrite.getD false = false then
                  (st, Except.error ServiceError.suggestionError)
                else
                  match BackupManager.create_backup st p with
                  | Except.error e => (st, Except.error e)
                  | Except.ok st2 => (writeF st2 p c, Except.ok []))
              else (writeF st p c, Except.ok [])) = (stf, Except.ok rs) := hap
            rw [hlk] at hap2
            simp only [Option.isSome_none, Bool.false_eq_true, if_false] at hap2
            injection hap2 with hap1 _
            rw [← hap1]
            rfl
        | unknownSug =>
          have hap2 : (st, Except.error ServiceError.suggestionError) =
              (stf, Except.ok rs) := hap
          simp at hap2

/-- **C2 witness**: a successful `write_file` over an existing one-byte
file `"x"` records that byte string as the newest backup, and a
`create_file` at a fresh path records none. -/
theorem c2_backup_before_mutate_witness :
    (BackupManager.list_backups
        (runSOp (.writeOp (str "y")) ⟨[(["f"], str "x")], []⟩ ["f"]).1
        ["f"] ≠ [] ∧
      (BackupManager.list_backups
        (runSOp (.writeOp (str "y")) ⟨[(["f"], str "x")], []⟩ ["f"]).1
        ["f"]).head? = some (str "x")) ∧
    BackupManager.list_backups
        (runSOp (.createOp (str "z")) ⟨[(["f"], str "x")], []⟩ ["g"]).1
        ["g"] =
      BackupManager.list_backups ⟨[(["f"], str "x")], []⟩ ["g"] :=
  ⟨(c2_backup_before_mutate (.writeOp (str "y")) ⟨[(["f"], str "x")], []⟩
      (runSOp (.writeOp (str "y")) ⟨[(["f"], str "x")], []⟩ ["f"]).1 ["f"]
      (by rfl)).1 (str "x") (by rfl),
    (c2_backup_before_mutate (.createOp (str "z")) ⟨[(["f"], str "x")], []⟩
      (runSOp (.createOp (str "z")) ⟨[(["f"], str "x")], []⟩ ["g"]).1 ["g"]
      (by rfl)).2 (by rfl)⟩

/-- **C8**: after `N + k` successful backups of one file into an empty
bucket, where `N = MAX_BACKUPS_PER_FILE = 10` and `k > 0`, `list_backups`
returns exactly the `N` most recent backup contents, newest first — the
`k` oldest have been pruned away. -/
theorem c8_backup_retention (st : SState) (p : FPath) (cs : List Content)
    (k : Nat) (hk : 0 < k)
    (hlen : cs.length = MAX_BACKUPS_PER_FILE + k)
    (hempty : BackupManager.list_backups st p = []) :
    BackupManager.list_backups (snapshotRun st p cs) p =
      cs.reverse.take MAX_BACKUPS_PER_FILE ∧
    (BackupManager.list_backups (snapshotRun st p cs) p).length =
      MAX_BACKUPS_PER_FILE := by
  have h1 := snapshotRun_backups cs st p (by simp [hempty])
  rw [hempty, List.append_nil] at h1
  refine ⟨h1, ?_⟩
  rw [h1, List.length_take, List.length_reverse, hlen]
  omega

/-- **C8 witness**: eleven successive backups `c0 … c10` of one file keep
exactly the newest ten, `c10` first. -/
theorem c8_backup_retention_witness :
    BackupManager.list_backups
      (snapshotRun ⟨[], []⟩ ["f"]
        [str "c0", str "c1", str "c2", str "c3", str "c4", str "c5",
         str "c6", str "c7", str "c8", str "c9", str "c10"]) ["f"] =
      ([str "c0", str "c1", str "c2", str "c3", str "c4", str "c5",
        str "c6", str "c7", str "c8", str "c9",
        str "c10"].reverse).take MAX_BACKUPS_PER_FILE ∧
    (BackupManager.list_backups
      (snapshotRun ⟨[], []⟩ ["f"]
        [str "c0", str "c1", str "c2", str "c3", str "c4", str "c5",
         str "c6", str "c7", str "c8", str "c9", str "c10"]) ["f"]).length =
      MAX_BACKUPS_PER_FILE :=
  c8_backup_retention ⟨[], []⟩ ["f"]
    [str "c0", str "c1", str "c2", str "c3", str "c4", str "c5",
     str "c6", str "c7", str "c8", str "c9", str "c10"] 1
    (by decide) (by rfl) (by rfl)

/-- **C9**: `generate_unified_diff` emits a hunk only if it contains an
insert or delete line (an all-equal hunk is discarded, also at end of
input), and a hunk is flushed once it exceeds 3 lines, so every emitted
hunk has at most 4; diffing any text against itself emits zero hunks, and
diffing `""` against `"a\nb\n"` emits exactly one hunk holding two insert
lines. -/
theorem c9_unified_diff_hunks :
    (∀ cs : List Change, ∀ h ∈ renderHunks cs,
      hunkHasChanges h.lns = true ∧ h.lns.length ≤ 4) ∧
    (∀ t : Content, DiffGenerator.generate_unified_diff t t = []) ∧
    DiffGenerator.generate_unified_diff (str "") (str "a\nb\n") =
      [{ startOrig := 0, sizeOrig := 0, startMod := 0, sizeMod := 2,
         lns := [⟨ChangeTag.insertTag, str "a\n"⟩,
                 ⟨ChangeTag.insertTag, str "b\n"⟩] }] := by
  refine ⟨?_, ?_, by rfl⟩
  · intro cs
    exact finishDiff_good (foldl_wellFlushed cs initDState
      ⟨by simp [initDState], by simp [initDState], by simp [initDState]⟩)
  · intro t
    unfold DiffGenerator.generate_unified_diff renderHunks
    rw [lcsDiff_self]
    have hall : ∀ c ∈ (linesWithEndings t).map
        (fun x => (⟨ChangeTag.equalTag, x⟩ : Change)),
        c.tag = ChangeTag.equalTag := by
      intro c hc
      simp only [List.mem_map] at hc
      obtain ⟨x, -, rfl⟩ := hc
      rfl
    obtain ⟨h1, h2⟩ := foldl_equal _ hall initDState (by simp [initDState])
      (by simp [initDState])
    unfold finishDiff
    split
    · rw [hunkHasChanges_all_equal h2]
      simpa using h1
    · exact h1

/-- **C9 witness**: the hunk invariant applied to the concrete one-insert
stream. -/
theorem c9_unified_diff_hunks_witness :
    hunkHasChanges (Hunk.mk 0 0 0 1 [⟨ChangeTag.insertTag, str "a"⟩]).lns =
      true ∧
    (Hunk.mk 0 0 0 1 [⟨ChangeTag.insertTag, str "a"⟩]).lns.length ≤ 4 :=
  c9_unified_diff_hunks.1 [⟨ChangeTag.insertTag, str "a"⟩]
    (Hunk.mk 0 0 0 1 [⟨ChangeTag.insertTag, str "a"⟩]) (by decide)

/-- **C3** (code evaluation at the failing input): an initialized session
receiving `tools/call` with no `params` field sends no response at all —
the request is silently dropped by the `if let` with no `else`,
contradicting the claim that every failing `tools/call` is answered with
an error response carrying the id.  A `tools/call` that does carry a
`params` value is always answered by exactly one response. -/
theorem c3_tools_call_without_params_dropped :
    (∀ (eng : Engine) (id : Nat),
      McpHandler.processRequest eng true id "tools/call" none = (true, [])) ∧
    (∀ (eng : Engine) (id : Nat) (pv : CallParams),
      (McpHandler.processRequest eng true id "tools/call"
        (some pv)).2.length = 1) := by
  constructor
  · intro eng id
    rfl
  · intro eng id pv
    show (McpHandler.handle_tools_call eng id pv).length = 1
    simp only [McpHandler.handle_tools_call]
    repeat' split
    all_goals rfl

/-- **C5 counterexample**: the request with method `"nope"` sent before
`initialize` is answered `InvalidRequest`, but the identical request
after `initialize` is answered with a `MethodNotFound` error — it does
not succeed, refuting the claim's second half. -/
theorem c5_counterexample :
    McpHandler.processRequest (fun _ _ => Except.ok "r") false 1 "nope"
        none = (false, [.errorMsg 1 .invalidRequest]) ∧
    McpHandler.processRequest (fun _ _ => Except.ok "r") true 1 "nope"
        none = (true, [.errorMsg 1 .methodNotFound]) :=
  ⟨by rfl, by rfl⟩

/-- **C5** (amended): any non-`initialize` request received while
uninitialized is answered with exactly an `InvalidRequest` error carrying
its id and leaves the session uninitialized; the identical request after
`initialize` is dispatched through the method table instead of being
rejected, and a request with a handled, argument-free method such as
`tools/list` succeeds. -/
theorem c5_initialize_gating (eng : Engine) (id : Nat) (method : String)
    (params : Option CallParams) :
    (method ≠ "initialize" →
      McpHandler.processRequest eng false id method params =
        (false, [.errorMsg id .invalidRequest])) ∧
    (method ≠ "initialize" →
      McpHandler.processRequest eng true id method params =
        (true, McpHandler.handle_request eng id method params)) ∧
    McpHandler.processRequest eng true id "tools/list" params =
      (true, [.resultMsg id "tools"]) := by
  refine ⟨?_, ?_, ?_⟩
  · intro h
    simp [McpHandler.processRequest, h]
  · intro h
    simp [McpHandler.processRequest, h]
  · rfl

/-- **C5 witness**: the uninitialized rejection applied to a concrete
request. -/
theorem c5_initialize_gating_witness :
    McpHandler.processRequest (fun _ _ => Except.ok "r") false 3 "nope"
        none = (false, [.errorMsg 3 .invalidRequest]) :=
  (c5_initialize_gating (fun _ _ => Except.ok "r") 3 "nope" none).1
    (by decide)

/-- **C4 counterexample**: applying an `Edit` suggestion
`[replace line 5, insert line 0]` to a one-line file `"x"` aborts at the
failing first op: the whole call returns the editor error instead of a
per-op results sequence, and the second op is never applied (the file
still holds `"x"`). -/
theorem c4_counterexample :
    (FileService.apply_suggestion ⟨[(["f"], str "x")], []⟩ ["f"]
        (.editSug (some [.replaceA 5 (str "y"), .insertA 0 (str "z")]))).2 =
      .error (.editorError (.lineOutOfRange 5)) ∧
    alookup (FileService.apply_suggestion ⟨[(["f"], str "x")], []⟩ ["f"]
        (.editSug (some [.replaceA 5 (str "y"),
          .insertA 0 (str "z")]))).1.files ["f"] = some (str "x") :=
  ⟨by rfl, by rfl⟩

/-- **C4** (amended): in the `Edit` loop only an op with an unrecognized
action is reported as a failure entry in the results sequence without
aborting; an op with a known action that fails aborts `apply_suggestion`
with its error, leaving the ops before it applied and the ops after it
unapplied. -/
theorem c4_edit_loop_abort_semantics :
    (∀ (st : SState) (p : FPath) (name : String) (rest : List EditAction)
        (st2 : SState) (rs : List OpResult),
      applyEditLoop st p rest = (st2, .ok rs) →
      applyEditLoop st p (.unknownA name :: rest) =
        (st2, .ok (.unknownErr name :: rs))) ∧
    (∀ (st : SState) (p : FPath) (a : EditAction) (rest : List EditAction)
        (st1 : SState) (e : ServiceError),
      runEditAction st p a = (st1, .error e) →
      applyEditLoop st p (a :: rest) = (st1, .error e)) := by
  constructor
  · intro st p name rest st2 rs hrest
    have hstep : runEditAction st p (.unknownA name) =
        (st, .ok (.unknownErr name)) := rfl
    simp only [applyEditLoop, hstep, hrest, Except.map]
  · intro st p a rest st1 e hact
    simp only [applyEditLoop, hact]

/-- **C4 witness**: a loop holding only an unknown op yields its error
entry without failing, while a known op failing out of range aborts the
loop before the following insert. -/
theorem c4_edit_loop_abort_semantics_witness :
    applyEditLoop ⟨[(["f"], str "x")], []⟩ ["f"] [.unknownA "frob"] =
      (⟨[(["f"], str "x")], []⟩, .ok [.unknownErr "frob"]) ∧
    applyEditLoop ⟨[(["f"], str "x")], []⟩ ["f"]
        [.deleteA 3, .insertA 0 (str "z")] =
      (⟨[(["f"], str "x")], []⟩, .error (.editorError (.lineOutOfRange 3))) :=
  ⟨c4_edit_loop_abort_semantics.1 ⟨[(["f"], str "x")], []⟩ ["f"] "frob" []
      ⟨[(["f"], str "x")], []⟩ [] (by rfl),
    c4_edit_loop_abort_semantics.2 ⟨[(["f"], str "x")], []⟩ ["f"]
      (.deleteA 3) [.insertA 0 (str "z")] ⟨[(["f"], str "x")], []⟩
      (.editorError (.lineOutOfRange 3)) (by rfl)⟩

/-- **C1 counterexample**: with existing base `/home/user` and relative
request `../../etc/passwd` whose target does not exist, canonicalization
fails and `resolve_path` returns the syntactically joined path: the call
does not fail, and the returned path normalizes to `/etc/passwd`, which
is not a descendant of the (canonical) base. -/
theorem c1_counterexample :
    FileService.resolve_path [["home"], ["home", "user"]] ["home", "user"]
        ⟨false, ["..", "..", "etc", "passwd"]⟩ =
      .ok ["home", "user", "..", "..", "etc", "passwd"] ∧
    normalize ["home", "user", "..", "..", "etc", "passwd"] =
      ["etc", "passwd"] ∧
    (normalize ["home", "user"]).isPrefixOf
        (normalize ["home", "user", "..", "..", "etc", "passwd"]) = false :=
  ⟨by rfl, by rfl, by rfl⟩

/-- **C1** (amended): when the joined request canonicalizes (its target
exists) and the base canonicalizes as well, `resolve_path` either returns
the canonical target, a descendant of the canonical base, or fails with
`PermissionDenied`; in particular the relative request `../../etc/passwd`
fails with `PermissionDenied` whenever its canonical target exists outside
the canonical base (closed instance included).  When canonicalization of
the joined request fails, the syntactically joined path is returned
unchecked (for a relative request) and may denote a location outside the
base. -/
theorem c1_resolve_path_sandbox (fs : FsWorld) (base : FPath) (p : RPath) :
    (normalize (joinedPath base p) ∈ fs → normalize base ∈ fs →
      (FileService.resolve_path fs base p =
          .ok (normalize (joinedPath base p)) ∧
        (normalize base).isPrefixOf (normalize (joinedPath base p)) = true) ∨
      FileService.resolve_path fs base p = .error .permissionDenied) ∧
    (p.absolute = false → normalize (joinedPath base p) ∉ fs →
      FileService.resolve_path fs base p = .ok (joinedPath base p)) ∧
    FileService.resolve_path
        [["home"], ["home", "user"], ["etc"], ["etc", "passwd"]]
        ["home", "user"] ⟨false, ["..", "..", "etc", "passwd"]⟩ =
      .error .permissionDenied := by
  refine ⟨?_, ?_, by rfl⟩
  · intro hin hbase
    unfold FileService.resolve_path
    by_cases habs : p.absolute ∧
        ¬ (renderPath base).isPrefixOf (renderPath p.comps)
    · rw [if_pos habs]
      exact Or.inr rfl
    · rw [if_neg habs]
      simp only [canonicalize, if_pos hin, if_pos hbase]
      by_cases hpref :
          (normalize base).isPrefixOf (normalize (joinedPath base p)) = true
      · rw [if_pos hpref]
        exact Or.inl ⟨rfl, hpref⟩
      · rw [if_neg hpref]
        exact Or.inr rfl
  · intro habs hnin
    unfold FileService.resolve_path
    rw [if_neg (by simp [habs])]
    simp only [canonicalize, if_neg hnin]

/-- **C1 witness**: the canonical-success case applied in a world where
the requested file exists inside the base. -/
theorem c1_resolve_path_sandbox_witness :
    (FileService.resolve_path [["home", "user"], ["home", "user", "a"]]
        ["home", "user"] ⟨false, ["a"]⟩ =
        .ok (normalize (joinedPath ["home", "user"] ⟨false, ["a"]⟩)) ∧
      (normalize ["home", "user"]).isPrefixOf
        (normalize (joinedPath ["home", "user"] ⟨false, ["a"]⟩)) = true) ∨
    FileService.resolve_path [["home", "user"], ["home", "user", "a"]]
        ["home", "user"] ⟨false, ["a"]⟩ = .error .permissionDenied :=
  (c1_resolve_path_sandbox [["home", "user"], ["home", "user", "a"]]
    ["home", "user"] ⟨false, ["a"]⟩).1 (by decide) (by decide)

/-- **C7 counterexample**: two successful `edit_region` calls whose
resulting line list differs from "the span replaced by the lines of
`content`": with empty content at start 0 (`"a\nb"`, region `[0,1)`) a
spurious empty first line appears, and with a trailing empty line in the
kept suffix (`"a\n\n"`, region `[0,1)`) that empty line is lost on
rewrite. -/
theorem c7_counterexample :
    (FileEditor.edit_region (str "a\nb") 0 1 (str "") = .ok (str "\nb") ∧
      rustLines (str "\nb") ≠
        (rustLines (str "a\nb")).take 0 ++ rustLines (str "") ++
          (rustLines (str "a\nb")).drop
            (min 1 (rustLines (str "a\nb")).length)) ∧
    (FileEditor.edit_region (str "a\n\n") 0 1 (str "Y") = .ok (str "Y\n") ∧
      rustLines (str "Y\n") ≠
        (rustLines (str "a\n\n")).take 0 ++ rustLines (str "Y") ++
          (rustLines (str "a\n\n")).drop
            (min 1 (rustLines (str "a\n\n")).length)) :=
  ⟨⟨by rfl, by decide⟩, ⟨by rfl, by decide⟩⟩

/-- **C7** (amended): `edit_region(start, end, content)` fails
`InvalidRange` when `start > end`, then `LineOutOfRange` when
`start ≥ lineCount`; otherwise it clamps `end` to `lineCount` and, for a
successful call, the resulting line list is the lines before `start`,
the lines of `content`, and the lines at/after the clamped end — provided
the edit is not the empty-content-at-start-0 case and the original's last
line is non-empty (outside those provisos the rewrite inserts a spurious
empty line or drops trailing empty lines, as the counterexample shows).
The spec's example `edit_region(0, 2, "X")` on `["a","b","c","d","e"]`
yields `["X","c","d","e"]`. -/
theorem c7_edit_region_semantics (content newContent : Content)
    (startLine endLine : Nat) :
    (startLine > endLine →
      FileEditor.edit_region content startLine endLine newContent =
        .error (.invalidRange startLine endLine)) ∧
    (¬ startLine > endLine → startLine ≥ (rustLines content).length →
      FileEditor.edit_region content startLine endLine newContent =
        .error (.lineOutOfRange startLine)) ∧
    (∀ r, FileEditor.edit_region content startLine endLine newContent = .ok r →
      (0 < startLine ∨ newContent ≠ []) →
      (rustLines content).getLast? ≠ some ([] : Content) →
      rustLines r =
        (rustLines content).take startLine ++ rustLines newContent ++
          (rustLines content).drop (min endLine (rustLines content).length)) ∧
    (FileEditor.edit_region (str "a\nb\nc\nd\ne") 0 2 (str "X") =
        .ok (str "X\nc\nd\ne") ∧
      rustLines (str "X\nc\nd\ne") = [str "X", str "c", str "d", str "e"]) := by
  refine ⟨?_, ?_, ?_, by rfl, by rfl⟩
  · intro h
    simp [FileEditor.edit_region, h]
  · intro h1 h2
    simp [FileEditor.edit_region, h1, h2]
  · intro r h hne hlast
    simp only [FileEditor.edit_region] at h
    split at h
    · simp at h
    · split at h
      · simp at h
      · rename_i hrange hstart
        rw [Except.ok.injEq] at h
        subst h
        have hstartlt : startLine < (rustLines content).length := by omega
        have hnlAll : ∀ x ∈ rustLines content, '\n' ∉ x :=
          fun x hx => rustLines_mem_noNL hx
        by_cases heff : min endLine (rustLines content).length <
            (rustLines content).length
        · -- lines remain after the clamped end
          rw [if_pos heff]
          have hS : (rustLines content).drop
              (min endLine (rustLines content).length) ≠ [] := by
            rw [Ne, List.drop_eq_nil_iff]
            omega
          have hSnl : ∀ x ∈ (rustLines content).drop
              (min endLine (rustLines content).length), '\n' ∉ x :=
            fun x hx => hnlAll x (List.drop_subset _ _ hx)
          have hSlast : ((rustLines content).drop
              (min endLine (rustLines content).length)).getLast? ≠
                some ([] : Content) := by
            rw [getLast?_drop_eq hS]
            exact hlast
          by_cases hs0 : 0 < startLine
          · rw [if_pos hs0]
            have hP : (rustLines content).take startLine ≠ [] := by
              intro hnil
              have hlen := congrArg List.length hnil
              rw [List.length_take] at hlen
              simp only [List.length_nil] at hlen
              omega
            have hPnl : ∀ x ∈ (rustLines content).take startLine, '\n' ∉ x :=
              fun x hx => hnlAll x (List.take_subset _ _ hx)
            have hu : joinNL ((rustLines content).take startLine) ++ ['\n'] ++
                newContent ≠ [] := by
              simp
            rw [rustLines_append_sep_joinNL hu hS hSnl hSlast]
            have hshape : joinNL ((rustLines content).take startLine) ++ ['\n'] ++
                newContent =
                joinNL ((rustLines content).take startLine) ++ '\n' :: newContent := by
              simp
            rw [hshape, rustLines_joinNL_prefix hP hPnl, List.append_assoc]
          · rw [if_neg hs0]
            have hnc : newContent ≠ [] := by
              rcases hne with h | h
              · omega
              · exact h
            have hu : ([] : Content) ++ newContent ≠ [] := by
              simpa using hnc
            rw [rustLines_append_sep_joinNL hu hS hSnl hSlast]
            have hs0' : startLine = 0 := by omega
            subst hs0'
            simp
        · -- the clamped end swallows the rest of the file
          rw [if_neg heff, List.append_nil]
          have heq : min endLine (rustLines content).length =
              (rustLines content).length := by omega
          rw [heq, List.drop_length, List.append_nil]
          by_cases hs0 : 0 < startLine
          · rw [if_pos hs0]
            have hP : (rustLines content).take startLine ≠ [] := by
              intro hnil
              have hlen := congrArg List.length hnil
              rw [List.length_take] at hlen
              simp only [List.length_nil] at hlen
              omega
            have hPnl : ∀ x ∈ (rustLines content).take startLine, '\n' ∉ x :=
              fun x hx => hnlAll x (List.take_subset _ _ hx)
            have hshape : joinNL ((rustLines content).take startLine) ++ ['\n'] ++
                newContent =
                joinNL ((rustLines content).take startLine) ++ '\n' :: newContent := by
              simp
            rw [hshape, rustLines_joinNL_prefix hP hPnl]
          · rw [if_neg hs0]
            have hs0' : startLine = 0 := by omega
            subst hs0'
            simp

/-- **C7 witness**: the amended line-level characterization applied at
the spec's own example. -/
theorem c7_edit_region_semantics_witness :
    rustLines (str "X\nc\nd\ne") =
      (rustLines (str "a\nb\nc\nd\ne")).take 0 ++ rustLines (str "X") ++
        (rustLines (str "a\nb\nc\nd\ne")).drop
          (min 2 (rustLines (str "a\nb\nc\nd\ne")).length) :=
  (c7_edit_region_semantics (str "a\nb\nc\nd\ne") (str "X") 0 2).2.2.1
    (str "X\nc\nd\ne") (by rfl) (Or.inr (by decide)) (by decide)

end Mcedit
